import Mathlib

/-!
# Mod synchronizer: reconciliation, transfer pool, manifest and settings patch

A shallow embedding of `cmd/client/client.go`, `cmd/server/server.go`,
`cmd/loader.go` and `cmd/build/tool.go`, with the properties of the
specification stated and settled against it.

Conventions of the embedding:

* a Go `map[string]T` is a `GoMap T`: a list of entries with pairwise distinct
  keys; `range` visits the entries in list order (Go leaves the order open, and
  every order is the entry list of some `GoMap`);
* a byte string is a `List Nat`;
* `sha256.Sum256` followed by `hex.EncodeToString` is a parameter
  `sha : Bytes → String` of the definitions that hash;
* the client's mods folder is a `LocalFolder`: the files directly in it, which
  the deletions and downloads act on, and the files in its sub-directories,
  which only the walk sees; the server's mods folder is a tree (`Node`); both
  are walked as `filepath.Walk` does;
* the goroutines of the download batch are embedded as an interleaving step
  function (`Pool.step`) driven by an explicit schedule (`List Action`); what
  `http.Get`, `os.Create` and `io.Copy` answer for a task travels with the task
  (`Fate`);
* `filepath.Join` and `filepath.Clean` follow their Go documentation, with `/`
  as the separator; the file system the handler reads is a function from paths
  to files.

The definitions come first, then the lemmas and the theorems on them.
-/

namespace ModSync

/-- Byte strings (`[]byte`). -/
abbrev Bytes := List Nat

/-! ## Go maps -/

/-- Look a key up in a list of entries: the first entry with that key. -/
def lookupEntries {β : Type} : List (String × β) → String → Option β
  | [], _ => none
  | (k, v) :: rest, key => if k = key then some v else lookupEntries rest key

/-- A Go `map[string]β`. -/
structure GoMap (β : Type) where
  entries : List (String × β)
  nodup : (entries.map Prod.fst).Nodup

/-- The comma-ok lookup `v, ok := m[k]`. -/
def GoMap.get? {β : Type} (m : GoMap β) (k : String) : Option β :=
  lookupEntries m.entries k

/-- The empty map, `make(map[string]β)`. -/
def GoMap.empty {β : Type} : GoMap β := ⟨[], List.nodup_nil⟩

/-- Entries of a list whose key is not `k`. -/
def dropKey {β : Type} (es : List (String × β)) (k : String) : List (String × β) :=
  es.filter (fun e => decide (e.1 ≠ k))

/-- Removal of a key, `delete(m, k)`. -/
def GoMap.delete {β : Type} (m : GoMap β) (k : String) : GoMap β :=
  ⟨dropKey m.entries k,
    List.Nodup.sublist (List.Sublist.map _ (List.filter_sublist m.entries)) m.nodup⟩

/-- Assignment `m[k] = v`: the old entry of `k`, if any, is replaced. -/
def GoMap.set {β : Type} (m : GoMap β) (k : String) (v : β) : GoMap β :=
  ⟨(k, v) :: dropKey m.entries k,
    List.nodup_cons.2
      ⟨fun hk => by
          rcases List.mem_map.1 hk with ⟨e, he, hek⟩
          have hne := (List.mem_filter.1 he).2
          simp [hek] at hne,
        List.Nodup.sublist (List.Sublist.map _ (List.filter_sublist m.entries)) m.nodup⟩⟩

/-! ## Data model (`client.go` lines 34–42, `server.go` lines 30–38) -/

/-- A manifest entry, `type Mod struct`. -/
structure Mod where
  Name : String
  Hash : String
deriving DecidableEq, Repr

/-- The manifest, `type ModList struct`. -/
structure ModList where
  Mods : List Mod
  Delete : GoMap String

/-! ## Reconciliation (`client.go` lines 170–201) -/

/-- Body of the loop of lines 172–176, for one `(modName, modHash)` of the
delete map. -/
def deleteStep (localMods : GoMap String) (modsToDelete : List String)
    (e : String × String) : List String :=
  match localMods.get? e.1 with
  | some localHash => if localHash = e.2 then modsToDelete ++ [e.1] else modsToDelete
  | none => modsToDelete

/-- The deletion list built by lines 171–176. -/
def modsToDelete (modList : ModList) (localMods : GoMap String) : List String :=
  modList.Delete.entries.foldl (deleteStep localMods) []

/-- Body of the loop of lines 197–201, for one entry of `modList.Mods`. -/
def downloadStep (localMods : GoMap String) (modsToDownload : List Mod) (mod : Mod) :
    List Mod :=
  match localMods.get? mod.Name with
  | some localHash => if localHash ≠ mod.Hash then modsToDownload ++ [mod] else modsToDownload
  | none => modsToDownload ++ [mod]

/-- The download list built by lines 196–201. -/
def modsToDownload (modList : ModList) (localMods : GoMap String) : List Mod :=
  modList.Mods.foldl (downloadStep localMods) []

/-- The test of line 198: the name is absent locally or its local digest
differs from the entry's hash. -/
def stale (localMods : GoMap String) (mod : Mod) : Bool :=
  decide (localMods.get? mod.Name ≠ some mod.Hash)

/-- The `upToDate` class of the specification (the client does not build it):
the entries of the manifest whose local digest equals their hash. -/
def upToDate (modList : ModList) (localMods : GoMap String) : List Mod :=
  modList.Mods.filter (fun mod => decide (localMods.get? mod.Name = some mod.Hash))

/-! ## The local mods folder (`client.go` lines 144–193) -/

/-- The order in which `filepath.Walk` visits the names of one directory: the
lexical order of `sort.Strings`, here on the characters of the names. -/
def nameLE : List Char → List Char → Bool
  | [], _ => true
  | _ :: _, [] => false
  | a :: as, b :: bs =>
    if a.toNat < b.toNat then true
    else if b.toNat < a.toNat then false
    else nameLE as bs

/-- The client's mods folder. `files` are the regular files directly in the
folder, by name: the files `os.Remove` and `os.Create` of
`filepath.Join(config.ModsFolder, name)` act on when `name` is a bare file
name. `subdirs` are the sub-directories of the folder, by name, each with the
regular files anywhere below it, base name and content, in the order the walk
visits them. Every file is taken to be readable: a read error ends the client
before the reconciliation. -/
structure LocalFolder where
  files : GoMap Bytes
  subdirs : List (String × List (String × Bytes))

/-- The regular files `filepath.Walk` visits from the mods folder on, by base
name (`info.Name()`), in the order of the walk: the names directly in the
folder in lexical order, a sub-directory giving the files below it. -/
def LocalFolder.walked (folder : LocalFolder) : List (String × Bytes) :=
  ((folder.files.entries.map (fun f => (f.1, [f])) ++ folder.subdirs).insertionSort
      (fun a b => nameLE a.1.data b.1.data = true)).flatMap Prod.snd

/-- The walk of lines 145–163: every regular file in the folder and below it
is read, hashed and recorded under its base name with
`localMods[info.Name()] = hashStr`; of two files with one base name the one
visited later stays. -/
def scanLocal (sha : Bytes → String) (folder : LocalFolder) : GoMap String :=
  folder.walked.foldl (fun localMods f => localMods.set f.1 (sha f.2)) GoMap.empty

/-- No regular file lies in a sub-directory of the folder. -/
def LocalFolder.isFlat (folder : LocalFolder) : Prop :=
  ∀ d ∈ folder.subdirs, d.2 = []

instance (folder : LocalFolder) : Decidable folder.isFlat := by
  unfold LocalFolder.isFlat
  infer_instance

/-- The confirmed deletion pass of lines 184–191 on the files directly in the
folder: `os.Remove(filepath.Join(config.ModsFolder, modName))` for every listed
name (a name that is not a file there leaves them as they are). -/
def removeAll (dir : GoMap Bytes) (names : List String) : GoMap Bytes :=
  names.foldl (fun d name => d.delete name) dir

/-! ## The download pool (`client.go` lines 212–253) -/

/-- An HTTP response as the worker sees it: `http.Get` returns it whatever its
status code is. -/
structure Response where
  StatusCode : Nat
  Body : Bytes
deriving DecidableEq, Repr

/-- What the environment answers to the three fallible calls of one download:
`http.Get` (line 221), `os.Create` (line 228), `io.Copy` (line 235). -/
structure Fate where
  /-- The answer of `http.Get`: `none` is a returned error. -/
  get : Option Response
  /-- Whether `os.Create` succeeds. -/
  create : Bool
  /-- The answer of `io.Copy`: `some written` is an error after `written` reached the file. -/
  copyErr : Option Bytes
deriving DecidableEq, Repr

/-- A queued download: the manifest entry sent on the channel, with the
answers the environment will give to it. -/
structure Task where
  mod : Mod
  fate : Fate
deriving DecidableEq, Repr

/-- The task runs into one of the three errors the worker checks for. -/
def Task.fails (t : Task) : Bool :=
  t.fate.get.isNone || !t.fate.create || t.fate.copyErr.isSome

/-- Where a worker goroutine stands in its loop. -/
inductive Phase where
  /-- At `for mod := range downloadCh`, waiting for a task. -/
  | idle
  /-- Holding a task, about to call `http.Get` (line 221). -/
  | got (t : Task)
  /-- Holding the response, about to call `os.Create` (line 228). -/
  | opened (t : Task) (resp : Response)
  /-- Holding the response and the file, about to call `io.Copy` (line 235). -/
  | created (t : Task) (resp : Response)
  /-- The goroutine function has returned. -/
  | exited
deriving DecidableEq, Repr

/-- A worker goroutine. Its deferred `resp.Body.Close()` and `out.Close()` calls
(lines 226 and 233) run when the goroutine function returns, so until then
every body and file it has opened stays open. -/
structure Worker where
  phase : Phase
  openBodies : Nat
  openFiles : Nat
deriving DecidableEq, Repr

/-- The lines the pool logs, and the requests it issues. -/
inductive Event where
  /-- Line 248, task queued. -/
  | queued (t : Task)
  /-- Line 221, `http.Get` called for the task. -/
  | request (t : Task)
  /-- Line 223, the request failed. -/
  | getFailed (id : Nat) (t : Task)
  /-- Line 230, the file could not be created. -/
  | createFailed (id : Nat) (t : Task)
  /-- Line 237, the copy failed. -/
  | copyFailed (id : Nat) (t : Task)
  /-- Line 241, download reported complete. -/
  | completed (t : Task)
deriving DecidableEq, Repr

/-- State of the download batch. -/
structure Pool where
  /-- Entries of `modsToDownload` the main goroutine has not sent yet. -/
  pending : List Task
  /-- Buffer of `downloadCh`. -/
  ch : List Task
  /-- Whether `close(downloadCh)` has run. -/
  closed : Bool
  /-- The worker goroutines, by `id`. -/
  workers : List Worker
  /-- The files directly in the mods folder, by name: the file
  `filepath.Join(config.ModsFolder, mod.Name)` a worker writes is the file
  `mod.Name` of these when the name is a bare file name. -/
  dir : GoMap Bytes
  /-- Log lines and requests, oldest first. -/
  log : List Event
  /-- Whether `wg.Wait()` has returned. -/
  done : Bool

/-- Number of worker goroutines (line 215). -/
def poolSize : Nat := 10

/-- Capacity of `downloadCh` (line 213). -/
def chanCap : Nat := 10

/-- The pool when the workers have been started and nothing has been sent. -/
def Pool.init (tasks : List Task) (dir : GoMap Bytes) : Pool :=
  { pending := tasks, ch := [], closed := false,
    workers := List.replicate poolSize ⟨Phase.idle, 0, 0⟩,
    dir := dir, log := [], done := false }

/-- Which goroutine moves next. -/
inductive Action where
  /-- The main goroutine sends the next entry (line 247). -/
  | send
  /-- The main goroutine closes the channel (line 251). -/
  | close
  /-- The main goroutine returns from `wg.Wait()` (line 252). -/
  | wait
  /-- Worker `id` takes its next step. -/
  | work (id : Nat)
deriving DecidableEq, Repr

/-- One step of worker `id`; `none` when the worker is blocked or gone. -/
def Pool.work (p : Pool) (id : Nat) : Option Pool :=
  match p.workers[id]? with
  | none => none
  | some w =>
    match w.phase with
    | Phase.exited => none
    | Phase.idle =>
      match p.ch with
      | t :: rest =>
        some { p with ch := rest, workers := p.workers.set id { w with phase := Phase.got t } }
      | [] =>
        if p.closed then
          some { p with workers := p.workers.set id ⟨Phase.exited, 0, 0⟩ }
        else none
    | Phase.got t =>
      match t.fate.get with
      | none =>
        some { p with
          log := p.log ++ [Event.request t, Event.getFailed id t],
          workers := p.workers.set id { w with phase := Phase.idle } }
      | some resp =>
        some { p with
          log := p.log ++ [Event.request t],
          workers := p.workers.set id
            { w with phase := Phase.opened t resp, openBodies := w.openBodies + 1 } }
    | Phase.opened t resp =>
      if t.fate.create then
        some { p with
          dir := p.dir.set t.mod.Name [],
          workers := p.workers.set id
            { w with phase := Phase.created t resp, openFiles := w.openFiles + 1 } }
      else
        some { p with
          log := p.log ++ [Event.createFailed id t],
          workers := p.workers.set id { w with phase := Phase.idle } }
    | Phase.created t resp =>
      match t.fate.copyErr with
      | some written =>
        some { p with
          dir := p.dir.set t.mod.Name written,
          log := p.log ++ [Event.copyFailed id t],
          workers := p.workers.set id { w with phase := Phase.idle } }
      | none =>
        some { p with
          dir := p.dir.set t.mod.Name resp.Body,
          log := p.log ++ [Event.completed t],
          workers := p.workers.set id { w with phase := Phase.idle } }

/-- One step of the batch; `none` when the chosen goroutine cannot move. -/
def Pool.step (p : Pool) : Action → Option Pool
  | Action.send =>
    match p.pending with
    | t :: rest =>
      if p.ch.length < chanCap then
        some { p with pending := rest, ch := p.ch ++ [t], log := p.log ++ [Event.queued t] }
      else none
    | [] => none
  | Action.close =>
    if p.pending = [] ∧ p.closed = false then some { p with closed := true } else none
  | Action.wait =>
    if p.closed = true ∧ p.done = false ∧ p.workers.all (fun w => decide (w.phase = Phase.exited))
    then some { p with done := true } else none
  | Action.work id => p.work id

/-- The batch under a schedule. -/
def Pool.run (p : Pool) : List Action → Option Pool
  | [] => some p
  | a :: rest =>
    match p.step a with
    | some q => q.run rest
    | none => none

/-- Tasks whose request has been issued, in order. -/
def requested : List Event → List Task
  | [] => []
  | Event.request t :: rest => t :: requested rest
  | _ :: rest => requested rest

/-- Tasks reported complete (line 241), in order. -/
def completed : List Event → List Task
  | [] => []
  | Event.completed t :: rest => t :: completed rest
  | _ :: rest => completed rest

/-- Tasks reported as failures (lines 223, 230, 237), in order. -/
def failed : List Event → List Task
  | [] => []
  | Event.getFailed _ t :: rest => t :: failed rest
  | Event.createFailed _ t :: rest => t :: failed rest
  | Event.copyFailed _ t :: rest => t :: failed rest
  | _ :: rest => failed rest

/-- The task a worker holds, if any. -/
def Worker.holding (w : Worker) : List Task :=
  match w.phase with
  | Phase.got t => [t]
  | Phase.opened t _ => [t]
  | Phase.created t _ => [t]
  | _ => []

/-- The task a worker has requested and not finished, if any. -/
def Worker.started (w : Worker) : List Task :=
  match w.phase with
  | Phase.opened t _ => [t]
  | Phase.created t _ => [t]
  | _ => []

/-- Downloads in flight: tasks taken from the channel and not finished. -/
def Pool.inFlight (p : Pool) : List Task := p.workers.flatMap Worker.holding

/-- Response bodies the workers hold open. -/
def Pool.openBodies (p : Pool) : Nat := (p.workers.map Worker.openBodies).sum

/-- Destination files the workers hold open. -/
def Pool.openFiles (p : Pool) : Nat := (p.workers.map Worker.openFiles).sum

/-- The schedule in which worker 0 handles one task from send to finish while
the other workers wait. -/
def Task.steps (t : Task) : List Action :=
  [Action.send, Action.work 0, Action.work 0]
    ++ (match t.fate.get with
        | none => []
        | some _ => Action.work 0 :: (if t.fate.create then [Action.work 0] else []))

/-- The schedule that sends and handles the tasks one by one on worker 0. -/
def feedSchedule (tasks : List Task) : List Action :=
  tasks.flatMap Task.steps

/-- A complete schedule: `feedSchedule`, then the channel is closed, every
worker leaves its loop, and `wg.Wait()` returns. -/
def seqSchedule (tasks : List Task) : List Action :=
  feedSchedule tasks ++ Action.close :: ((List.range poolSize).map Action.work ++ [Action.wait])

/-! ## One client run (`client.go` lines 144–257) -/

/-- Lines 178–193: the deletion list is shown and, when it is not empty and the
operator answers `y`, every listed file is removed. -/
def deletePass (dir : GoMap Bytes) (toDelete : List String) (confirm : Bool) : GoMap Bytes :=
  if toDelete.length > 0 ∧ confirm = true then removeAll dir toDelete else dir

/-- Lines 203–257: when the download list is not empty and the operator answers
`y`, the batch runs on it under the interleaving `sched`, each entry with the
answers `fate` gives for it. The result is the mods folder when the batch is
over, `none` when `sched` is not a complete schedule of the batch. -/
def downloadPass (dir : GoMap Bytes) (toDownload : List Mod) (confirm : Bool)
    (fate : Mod → Fate) (sched : List Action) : Option (GoMap Bytes) :=
  if toDownload.length > 0 ∧ confirm = true then
    match (Pool.init (toDownload.map (fun mod => ⟨mod, fate mod⟩)) dir).run sched with
    | some p => if p.done then some p.dir else none
    | none => none
  else some dir

/-- The run from the local scan on (lines 144–257): both lists are computed
from the index of the scan, the deletion pass runs, then the download pass,
both on the files directly in the folder. `confirmDelete` and
`confirmDownload` say whether the operator answers `y` to the two prompts. -/
def clientRun (sha : Bytes → String) (modList : ModList) (folder : LocalFolder)
    (confirmDelete confirmDownload : Bool) (fate : Mod → Fate) (sched : List Action) :
    Option LocalFolder :=
  let localMods := scanLocal sha folder
  let toDelete := modsToDelete modList localMods
  let files1 := deletePass folder.files toDelete confirmDelete
  let toDownload := modsToDownload modList localMods
  (downloadPass files1 toDownload confirmDownload fate sched).map
    (fun files2 => { folder with files := files2 })

/-- The environment in which the download of every entry succeeds with the
content `body` gives for it. -/
def allSucceed (body : Mod → Bytes) (mod : Mod) : Fate :=
  { get := some ⟨200, body mod⟩, create := true, copyErr := none }

/-! ## Manifest construction (`server.go` lines 84–106) -/

/-- A directory tree as `filepath.Walk` sees it. The data of a file is `none`
when `ioutil.ReadFile` fails on it; the children of a directory come in the
lexical order in which `Walk` visits them. -/
inductive Node where
  | file (name : String) (data : Option Bytes)
  | dir (name : String) (children : List Node)

/-- Base name of a node, `info.Name()`. -/
def Node.name : Node → String
  | Node.file name _ => name
  | Node.dir name _ => name

/-- Whether the node is a directory, `info.IsDir()`. -/
def Node.isDir : Node → Bool
  | Node.file _ _ => false
  | Node.dir _ _ => true

/-- The walk of lines 85–102 from a node on: the callback appends one `Mod`
per file to `modList.Mods`; a read error ends the walk with that error. -/
def walkMods (sha : Bytes → String) : Node → List Mod → Except String (List Mod)
  | Node.file name (some data), mods => Except.ok (mods ++ [⟨name, sha data⟩])
  | Node.file name none, _ => Except.error name
  | Node.dir _ children, mods => walkChildren sha children mods
where
  /-- The walk over the children of a directory. -/
  walkChildren (sha : Bytes → String) : List Node → List Mod → Except String (List Mod)
    | [], mods => Except.ok mods
    | child :: rest, mods =>
      match walkMods sha child mods with
      | Except.ok mods1 => walkChildren sha rest mods1
      | Except.error e => Except.error e

/-- The manifest entries at server start-up: the walk of the mods folder from
an empty `modList.Mods`. -/
def buildMods (sha : Bytes → String) (modsFolder : Node) : Except String (List Mod) :=
  walkMods sha modsFolder []

/-- The regular files of a tree with their data, in walk order. -/
def Node.files : Node → List (String × Option Bytes)
  | Node.file name data => [(name, data)]
  | Node.dir _ children => filesOfChildren children
where
  /-- The regular files below a list of nodes. -/
  filesOfChildren : List Node → List (String × Option Bytes)
    | [] => []
    | child :: rest => child.files ++ filesOfChildren rest

/-- The manifest entry of a readable file. -/
def entryOf (sha : Bytes → String) (f : String × Option Bytes) : Option Mod :=
  f.2.map (fun data => ⟨f.1, sha data⟩)

/-- A flat folder: a directory all of whose children are files, with pairwise
distinct names (as the names within one directory are). -/
def Node.isFlat : Node → Prop
  | Node.file _ _ => False
  | Node.dir _ children =>
    (∀ c ∈ children, c.isDir = false) ∧ (children.map Node.name).Nodup

/-! ## The download handler (`server.go` lines 133–159) -/

/-- Split a path at every `/`. -/
def splitSlash : List Char → List (List Char)
  | [] => [[]]
  | c :: rest =>
    if c = '/' then [] :: splitSlash rest
    else
      match splitSlash rest with
      | [] => [[c]]
      | first :: more => (c :: first) :: more

/-- The lexical processing of `filepath.Clean` on the elements of a path:
`stack` holds the elements kept so far, innermost first. Empty elements and
`.` are dropped, `..` removes the element before it, is dropped at the root
of a rooted path and is kept otherwise. -/
def cleanElems (rooted : Bool) : List (List Char) → List (List Char) → List (List Char)
  | [], stack => stack.reverse
  | e :: rest, stack =>
    if e = [] ∨ e = ['.'] then cleanElems rooted rest stack
    else if e = ['.', '.'] then
      match stack with
      | [] => if rooted then cleanElems rooted rest [] else cleanElems rooted rest [e]
      | top :: below =>
        if top = ['.', '.'] then cleanElems rooted rest (e :: stack)
        else cleanElems rooted rest below
    else cleanElems rooted rest (e :: stack)

/-- Go's `filepath.Clean` with `/` as separator. -/
def filepathClean (path : String) : String :=
  let rooted := decide (path.data.head? = some '/')
  let elems := cleanElems rooted (splitSlash path.data) []
  let body := List.intercalate ['/'] elems
  if rooted then String.mk ('/' :: body)
  else if body = [] then "." else String.mk body

/-- Go's `filepath.Join` of two elements: empty elements are ignored, the rest
joined with `/` and cleaned; all empty gives the empty string. -/
def filepathJoin (a b : String) : String :=
  if a = "" ∧ b = "" then ""
  else if a = "" then filepathClean b
  else if b = "" then filepathClean a
  else filepathClean (String.mk (a.data ++ '/' :: b.data))

/-- A file `os.Open` returns: its content and whether `file.Stat()` works on it. -/
structure OpenFile where
  content : Bytes
  statOk : Bool
deriving DecidableEq, Repr

/-- What the handler answers. -/
inductive Reply where
  /-- An error answer of `http.Error` with its status code. -/
  | error (code : Nat)
  /-- The file opened at `path` is streamed by `http.ServeContent`. -/
  | serve (path : String) (content : Bytes)
deriving DecidableEq, Repr

/-- The handler of lines 133–159. `osOpen` is the file system as `os.Open`
sees it from the server's working directory (`none`: the open fails);
`modName` is the `file` query parameter, empty when it is missing. -/
def downloadHandler (modsFolder : String) (osOpen : String → Option OpenFile)
    (modName : String) : Reply :=
  if modName = "" then Reply.error 400
  else
    let filePath := filepathJoin modsFolder modName
    match osOpen filePath with
    | none => Reply.error 404
    | some file =>
      if file.statOk then Reply.serve filePath file.content
      else Reply.error 500

/-- A bare file name: not empty, no separator, and neither `.` nor `..`. -/
def isBareName (name : String) : Prop :=
  name.data ≠ [] ∧ '/' ∉ name.data ∧ name.data ≠ ['.'] ∧ name.data ≠ ['.', '.']

instance (name : String) : Decidable (isBareName name) := by
  unfold isBareName
  infer_instance

/-! ## Embedded settings (`loader.go` lines 25–41, `tool.go` lines 46–66) -/

/-- Go's `bytes.LastIndexByte`: index of the last `c` in `s`, `-1` if there is none. -/
def lastIndexByte (s : Bytes) (c : Nat) : Int :=
  match s with
  | [] => -1
  | b :: rest =>
    let r := lastIndexByte rest c
    if 0 ≤ r then r + 1 else if b = c then 0 else -1

/-- The trimming of `ReadClientSettingsWithRaw` (lines 31–35): `raw` cut after
its last `}` when that is at a positive index. -/
def trimSettings (raw : Bytes) : Bytes :=
  let ind := lastIndexByte raw 125
  if ind > 0 then raw.take (ind + 1).toNat else raw

/-- The third result of `ReadClientSettingsWithRaw`, `len(data)`. -/
def validLen (raw : Bytes) : Nat := (trimSettings raw).length

/-- Go's `bytes.Index`: index of the first occurrence of `sep` in `s`, `-1` if
there is none. -/
def bytesIndex (s sep : Bytes) : Int :=
  if sep.isPrefixOf s then 0
  else
    match s with
    | [] => -1
    | _ :: rest =>
      let r := bytesIndex rest sep
      if 0 ≤ r then r + 1 else -1

/-- Go's `copy(dst[off:], src)`: the bytes of `dst` from `off` on are
overwritten with those of `src`, as many as fit. -/
def copyAt (dst : Bytes) (off : Nat) (src : Bytes) : Bytes :=
  dst.take off ++ src.take (dst.length - off) ++ dst.drop (off + src.length)

/-- The number `copy(dst[off:], src)` returns. -/
def copyCount (dst : Bytes) (off : Nat) (src : Bytes) : Nat :=
  min (dst.length - off) src.length

/-- The patch of `tool.go` lines 50–66 on the binary `bin`. -/
def patchBinary (bin raw : Bytes) (valid_len : Nat) (settings_data : Bytes) :
    Except String Bytes :=
  if settings_data.length > raw.length then
    Except.error "new settings is larger than old settings"
  else
    let constant_index := bytesIndex bin raw
    if constant_index < 0 then
      Except.error "can not find constant of settings in input file"
    else
      let bin1 := copyAt bin constant_index.toNat settings_data
      let constant_index1 := constant_index.toNat + copyCount bin constant_index.toNat settings_data
      if settings_data.length < valid_len then
        let tmp := List.replicate (valid_len - settings_data.length) 88
        Except.ok (copyAt bin1 constant_index1 tmp)
      else Except.ok bin1

/-- The bytes of the patched binary where the settings constant was. -/
def settingsRegion (out bin raw : Bytes) : Bytes :=
  (out.drop (bytesIndex bin raw).toNat).take raw.length

/-! ## The steps of the batch as a relation, and its invariants -/

/-- The moves of `Pool.step`, with the list of workers split at the worker
that moves. -/
inductive Step : Pool → Pool → Prop where
  | send (p : Pool) (t : Task) (rest : List Task) (hp : p.pending = t :: rest)
      (hc : p.ch.length < chanCap) :
      Step p { p with pending := rest, ch := p.ch ++ [t], log := p.log ++ [Event.queued t] }
  | close (p : Pool) (hp : p.pending = []) (hc : p.closed = false) :
      Step p { p with closed := true }
  | wait (p : Pool) (hc : p.closed = true) (hd : p.done = false)
      (hw : ∀ w ∈ p.workers, w.phase = Phase.exited) :
      Step p { p with done := true }
  | recv (p : Pool) (l1 l2 : List Worker) (w : Worker) (t : Task) (rest : List Task)
      (hw : p.workers = l1 ++ w :: l2) (hph : w.phase = Phase.idle) (hch : p.ch = t :: rest) :
      Step p { p with ch := rest, workers := l1 ++ { w with phase := Phase.got t } :: l2 }
  | exit (p : Pool) (l1 l2 : List Worker) (w : Worker)
      (hw : p.workers = l1 ++ w :: l2) (hph : w.phase = Phase.idle) (hch : p.ch = [])
      (hc : p.closed = true) :
      Step p { p with workers := l1 ++ ⟨Phase.exited, 0, 0⟩ :: l2 }
  | getErr (p : Pool) (l1 l2 : List Worker) (w : Worker) (t : Task)
      (hw : p.workers = l1 ++ w :: l2) (hph : w.phase = Phase.got t)
      (hf : t.fate.get = none) :
      Step p { p with
        log := p.log ++ [Event.request t, Event.getFailed l1.length t],
        workers := l1 ++ { w with phase := Phase.idle } :: l2 }
  | getOk (p : Pool) (l1 l2 : List Worker) (w : Worker) (t : Task) (resp : Response)
      (hw : p.workers = l1 ++ w :: l2) (hph : w.phase = Phase.got t)
      (hf : t.fate.get = some resp) :
      Step p { p with
        log := p.log ++ [Event.request t],
        workers := l1 ++
          { w with phase := Phase.opened t resp, openBodies := w.openBodies + 1 } :: l2 }
  | createErr (p : Pool) (l1 l2 : List Worker) (w : Worker) (t : Task) (resp : Response)
      (hw : p.workers = l1 ++ w :: l2) (hph : w.phase = Phase.opened t resp)
      (hf : t.fate.create = false) :
      Step p { p with
        log := p.log ++ [Event.createFailed l1.length t],
        workers := l1 ++ { w with phase := Phase.idle } :: l2 }
  | createOk (p : Pool) (l1 l2 : List Worker) (w : Worker) (t : Task) (resp : Response)
      (hw : p.workers = l1 ++ w :: l2) (hph : w.phase = Phase.opened t resp)
      (hf : t.fate.create = true) :
      Step p { p with
        dir := p.dir.set t.mod.Name [],
        workers := l1 ++
          { w with phase := Phase.created t resp, openFiles := w.openFiles + 1 } :: l2 }
  | copyErr (p : Pool) (l1 l2 : List Worker) (w : Worker) (t : Task) (resp : Response)
      (written : Bytes)
      (hw : p.workers = l1 ++ w :: l2) (hph : w.phase = Phase.created t resp)
      (hf : t.fate.copyErr = some written) :
      Step p { p with
        dir := p.dir.set t.mod.Name written,
        log := p.log ++ [Event.copyFailed l1.length t],
        workers := l1 ++ { w with phase := Phase.idle } :: l2 }
  | copyOk (p : Pool) (l1 l2 : List Worker) (w : Worker) (t : Task) (resp : Response)
      (hw : p.workers = l1 ++ w :: l2) (hph : w.phase = Phase.created t resp)
      (hf : t.fate.copyErr = none) :
      Step p { p with
        dir := p.dir.set t.mod.Name resp.Body,
        log := p.log ++ [Event.completed t],
        workers := l1 ++ { w with phase := Phase.idle } :: l2 }

/-- Tasks the workers have requested and not finished. -/
def Pool.started (p : Pool) : List Task := p.workers.flatMap Worker.started

/-- What holds of the batch on `tasks` at every moment. -/
structure Inv (tasks : List Task) (p : Pool) : Prop where
  /-- Every task is in exactly one place: reported, held by a worker, in the
  channel, or not sent yet. -/
  count : ∀ t, (completed p.log).count t + (failed p.log).count t + p.inFlight.count t
      + p.ch.count t + p.pending.count t = tasks.count t
  /-- Every request issued is of a task reported or still being handled. -/
  req : ∀ t, (requested p.log).count t
      = (completed p.log).count t + (failed p.log).count t + p.started.count t
  /-- Only tasks that meet none of the three errors are reported complete. -/
  okc : ∀ t ∈ completed p.log, t.fails = false
  /-- Only tasks that meet one of the three errors are reported as failures. -/
  errc : ∀ t ∈ failed p.log, t.fails = true
  /-- A worker past the request holds the response of its task. -/
  opened : ∀ w ∈ p.workers, ∀ t r, w.phase = Phase.opened t r → t.fate.get = some r
  /-- A worker past the create holds the response, and the create went well. -/
  created : ∀ w ∈ p.workers, ∀ t r, w.phase = Phase.created t r →
      t.fate.get = some r ∧ t.fate.create = true
  /-- The channel is closed only when everything has been sent. -/
  closed : p.closed = true → p.pending = []
  /-- A worker leaves only when the channel is closed and drained. -/
  exited : ∀ w ∈ p.workers, w.phase = Phase.exited → p.closed = true ∧ p.ch = []
  /-- The batch is over only when every worker has left. -/
  done : p.done = true → p.closed = true ∧ ∀ w ∈ p.workers, w.phase = Phase.exited
  /-- There are always `poolSize` workers. -/
  size : p.workers.length = poolSize

/-- What holds of the mods folder during the batch on `tasks` started on the
files `dir0`. -/
structure DirInv (tasks : List Task) (dir0 : GoMap Bytes) (p : Pool) : Prop where
  /-- A name that no task has is as it was. -/
  untouched : ∀ name, (∀ t ∈ tasks, t.mod.Name ≠ name) → p.dir.get? name = dir0.get? name
  /-- The file of a task reported complete holds the body of its response, or a
  worker is about to copy to it, when every task of that name is that task. -/
  written : ∀ t ∈ completed p.log, (∀ t2 ∈ tasks, t2.mod.Name = t.mod.Name → t2 = t) →
      (∃ w ∈ p.workers, ∃ t2 r, w.phase = Phase.created t2 r ∧ t2.mod.Name = t.mod.Name)
      ∨ (∃ r, t.fate.get = some r ∧ p.dir.get? t.mod.Name = some r.Body)

/-- Number of tasks whose request is answered. -/
def answered (tasks : List Task) : Nat :=
  (tasks.filter (fun t => t.fate.get.isSome)).length

/-- Number of tasks whose destination file is created. -/
def createdFiles (tasks : List Task) : Nat :=
  (tasks.filter (fun t => t.fate.get.isSome && t.fate.create)).length

/-- How many steps a worker in the given phase has at least ahead of it,
counted so that every step of the batch lowers `Pool.fuel`. -/
def Phase.weight : Phase → Nat
  | Phase.got _ => 4
  | Phase.opened _ _ => 3
  | Phase.created _ _ => 2
  | Phase.idle => 1
  | Phase.exited => 0

/-- A bound on the number of steps the batch can still take. -/
def Pool.fuel (p : Pool) : Nat :=
  6 * p.pending.length + 5 * p.ch.length + (p.workers.map (fun w => w.phase.weight)).sum
    + (if p.closed then 0 else 1) + (if p.done then 0 else 1)

/-! ## Example inputs -/

/-- Five downloads of which the third meets a request error. -/
def fiveTasks : List Task :=
  [⟨⟨"m1.jar", "H1"⟩, ⟨some ⟨200, [1]⟩, true, none⟩⟩,
   ⟨⟨"m2.jar", "H2"⟩, ⟨some ⟨200, [2]⟩, true, none⟩⟩,
   ⟨⟨"m3.jar", "H3"⟩, ⟨none, true, none⟩⟩,
   ⟨⟨"m4.jar", "H4"⟩, ⟨some ⟨200, [4]⟩, true, none⟩⟩,
   ⟨⟨"m5.jar", "H5"⟩, ⟨some ⟨200, [5]⟩, true, none⟩⟩]

/-- An interleaving of five workers on `fiveTasks`. -/
def fiveSchedule : List Action :=
  [Action.send, Action.send, Action.work 0, Action.send, Action.work 1, Action.send,
   Action.send, Action.work 2, Action.work 3, Action.work 4,
   Action.work 4, Action.work 2, Action.work 0, Action.work 4, Action.work 1, Action.work 3,
   Action.work 0, Action.work 0, Action.work 4, Action.work 3, Action.work 1, Action.work 3,
   Action.work 1, Action.close,
   Action.work 9, Action.work 8, Action.work 7, Action.work 6, Action.work 5,
   Action.work 4, Action.work 3, Action.work 2, Action.work 1, Action.work 0, Action.wait]

/-- Bytes read as text, standing in for the digest in the examples. -/
def textOf (data : Bytes) : String := String.mk (data.map Char.ofNat)

/-- The bytes of a text. -/
def bytesOf (text : String) : Bytes := text.data.map Char.toNat

/-- The body `http.Error` sends with the 404 of `server.go` line 143: the
message `错误：文件未找到` in UTF-8 and a line feed. -/
def notFoundBody : Bytes :=
  [233, 148, 153, 232, 175, 175, 239, 188, 154, 230, 150, 135, 228, 187, 182, 230, 156, 170,
   230, 137, 190, 229, 136, 176, 10]

/-- A download the server answers with `404 Not Found`. -/
def missingTask : Task :=
  ⟨⟨"b.jar", "H2"⟩, ⟨some ⟨404, notFoundBody⟩, true, none⟩⟩

/-- A manifest that lists `a.jar` with the digest its tombstone has. -/
def tombstonedManifest : ModList :=
  { Mods := [⟨"a.jar", "H1"⟩], Delete := GoMap.empty.set "a.jar" "H1" }

/-- A manifest that lists `a.jar` anew after a tombstone for an older content. -/
def relistedManifest : ModList :=
  { Mods := [⟨"a.jar", "H2"⟩], Delete := GoMap.empty.set "a.jar" "H1" }

/-- The manifest of the scenario of the specification. -/
def scenarioManifest : ModList :=
  { Mods := [⟨"a.jar", "H1"⟩, ⟨"b.jar", "H2"⟩], Delete := GoMap.empty.set "c.jar" "H3" }

/-- The mods folder of the scenario: `a.jar` and `c.jar`, whose contents are
the texts `H1` and `H3`, and no sub-directory. -/
def scenarioFolder : LocalFolder :=
  { files := (GoMap.empty.set "a.jar" (bytesOf "H1")).set "c.jar" (bytesOf "H3"),
    subdirs := [] }

/-- An empty mods folder. -/
def emptyFolder : LocalFolder := { files := GoMap.empty, subdirs := [] }

/-- A mods folder that holds `a.jar` with the content `H1`, and nothing else. -/
def oneFileFolder : LocalFolder :=
  { files := GoMap.empty.set "a.jar" (bytesOf "H1"), subdirs := [] }

/-- A mods folder whose only file is `sub/a.jar`, with the content `H0`. -/
def nestedFolder : LocalFolder :=
  { files := GoMap.empty, subdirs := [("sub", [("a.jar", bytesOf "H0")])] }

/-- A mods folder that holds `a.jar` and `zzz/a.jar`, both with the content `H1`. -/
def shadowedFolder : LocalFolder :=
  { files := GoMap.empty.set "a.jar" (bytesOf "H1"),
    subdirs := [("zzz", [("a.jar", bytesOf "H1")])] }

/-- A manifest that lists `a.jar` and has no tombstone. -/
def plainManifest : ModList :=
  { Mods := [⟨"a.jar", "H1"⟩], Delete := GoMap.empty }

/-- The content sent for an entry in the examples: the text of its hash. -/
def bodyOf (mod : Mod) : Bytes := bytesOf mod.Hash

/-- A manifest that lists the name `a.jar` twice, with two hashes, as the server
builds it from `mods/a.jar` and `mods/sub/a.jar`. -/
def doubleListedManifest : ModList :=
  { Mods := [⟨"a.jar", "H2"⟩, ⟨"a.jar", "H3"⟩], Delete := GoMap.empty }

/-- Two downloads under the one name `a.jar`, both answered with the same
three bytes; the copy of the second breaks off after the first byte. -/
def sameNameTasks : List Task :=
  [⟨⟨"a.jar", "H1"⟩, ⟨some ⟨200, [1, 2, 3]⟩, true, none⟩⟩,
   ⟨⟨"a.jar", "H2"⟩, ⟨some ⟨200, [1, 2, 3]⟩, true, some [1]⟩⟩]

/-! ## Lemmas on maps -/

theorem lookupEntries_dropKey {β : Type} (es : List (String × β)) (k key : String) :
    lookupEntries (dropKey es k) key = if key = k then none else lookupEntries es key := by
  induction es with
  | nil => simp [dropKey, lookupEntries]
  | cons e rest ih =>
    obtain ⟨k0, v0⟩ := e
    unfold dropKey at ih ⊢
    by_cases h0 : k0 = k
    · subst h0
      simp only [List.filter_cons, ne_eq, not_true_eq_false, decide_False, Bool.false_eq_true,
        if_false, ih, lookupEntries]
      by_cases hk : key = k0
      · simp [hk]
      · have : ¬ k0 = key := fun h => hk h.symm
        simp [hk, this]
    · simp only [List.filter_cons, ne_eq, h0, not_false_eq_true, decide_True, if_true,
        lookupEntries, ih]
      by_cases hk : k0 = key
      · have : ¬ key = k := fun h => h0 (hk.trans h)
        simp [hk, this]
      · simp [hk]

theorem GoMap.get?_delete {β : Type} (m : GoMap β) (k key : String) :
    (m.delete k).get? key = if key = k then none else m.get? key :=
  lookupEntries_dropKey m.entries k key

theorem GoMap.get?_set {β : Type} (m : GoMap β) (k key : String) (v : β) :
    (m.set k v).get? key = if key = k then some v else m.get? key := by
  show lookupEntries ((k, v) :: dropKey m.entries k) key = _
  simp only [lookupEntries, lookupEntries_dropKey]
  by_cases hk : k = key
  · simp [hk]
  · have : ¬ key = k := fun h => hk h.symm
    simp [hk, this]
    rfl

theorem lookupEntries_none_of_not_mem {β : Type} (es : List (String × β)) (key : String)
    (h : key ∉ es.map Prod.fst) : lookupEntries es key = none := by
  induction es with
  | nil => rfl
  | cons e rest ih =>
    obtain ⟨k0, v0⟩ := e
    simp only [List.map_cons, List.mem_cons, not_or] at h
    have : ¬ k0 = key := fun h0 => h.1 h0.symm
    simp [lookupEntries, this, ih h.2]

theorem mem_iff_lookupEntries {β : Type} (es : List (String × β))
    (hnd : (es.map Prod.fst).Nodup) (key : String) (v : β) :
    (key, v) ∈ es ↔ lookupEntries es key = some v := by
  induction es with
  | nil => simp [lookupEntries]
  | cons e rest ih =>
    obtain ⟨k0, v0⟩ := e
    simp only [List.map_cons, List.nodup_cons] at hnd
    by_cases hk : k0 = key
    · subst hk
      have hnot : ∀ w, (k0, w) ∉ rest := fun w hw =>
        hnd.1 (List.mem_map.2 ⟨(k0, w), hw, rfl⟩)
      simp only [List.mem_cons, Prod.mk.injEq, true_and, lookupEntries, if_true,
        Option.some.injEq]
      constructor
      · rintro (h | h)
        · exact h.symm
        · exact absurd h (hnot v)
      · intro h; exact Or.inl h.symm
    · have hk2 : ¬ key = k0 := fun h => hk h.symm
      simp only [List.mem_cons, Prod.mk.injEq, hk2, false_and, false_or, lookupEntries, hk,
        if_false]
      exact ih hnd.2

theorem GoMap.mem_entries_iff {β : Type} (m : GoMap β) (key : String) (v : β) :
    (key, v) ∈ m.entries ↔ m.get? key = some v :=
  mem_iff_lookupEntries m.entries m.nodup key v

/-! ## Lemmas on the reconciliation loops -/

theorem foldl_deleteStep (localMods : GoMap String) (es : List (String × String))
    (acc : List String) :
    es.foldl (deleteStep localMods) acc
      = acc ++ (es.filter (fun e => decide (localMods.get? e.1 = some e.2))).map Prod.fst := by
  induction es generalizing acc with
  | nil => simp
  | cons e rest ih =>
    rw [List.foldl_cons, ih]
    unfold deleteStep
    cases hl : localMods.get? e.1 with
    | none => simp [List.filter_cons, hl]
    | some localHash =>
      by_cases hh : localHash = e.2
      · simp [hh, List.filter_cons, hl]
      · simp [hh, List.filter_cons, hl]

theorem foldl_downloadStep (localMods : GoMap String) (mods : List Mod) (acc : List Mod) :
    mods.foldl (downloadStep localMods) acc = acc ++ mods.filter (stale localMods) := by
  induction mods generalizing acc with
  | nil => simp
  | cons mod rest ih =>
    rw [List.foldl_cons, ih]
    unfold downloadStep stale
    cases hl : localMods.get? mod.Name with
    | none => simp [List.filter_cons, hl]
    | some localHash =>
      by_cases hh : localHash = mod.Hash
      · simp [hh, List.filter_cons, hl]
      · simp [hh, List.filter_cons, hl]

theorem modsToDownload_eq_filter (modList : ModList) (localMods : GoMap String) :
    modsToDownload modList localMods = modList.Mods.filter (stale localMods) := by
  unfold modsToDownload
  rw [foldl_downloadStep]
  rfl

theorem mem_modsToDelete (modList : ModList) (localMods : GoMap String) (name : String) :
    name ∈ modsToDelete modList localMods
      ↔ ∃ digest, modList.Delete.get? name = some digest ∧ localMods.get? name = some digest := by
  unfold modsToDelete
  rw [foldl_deleteStep]
  simp only [List.nil_append, List.mem_map, List.mem_filter, decide_eq_true_eq]
  constructor
  · rintro ⟨⟨k, d⟩, ⟨hmem, hloc⟩, rfl⟩
    exact ⟨d, (modList.Delete.mem_entries_iff k d).1 hmem, hloc⟩
  · rintro ⟨d, hdel, hloc⟩
    exact ⟨(name, d), ⟨(modList.Delete.mem_entries_iff name d).2 hdel, hloc⟩, rfl⟩

/-! ## Reconciliation: the deletion list and the download list -/

theorem stale_iff (localMods : GoMap String) (mod : Mod) :
    stale localMods mod = true
      ↔ localMods.get? mod.Name = none
        ∨ ∃ localHash, localMods.get? mod.Name = some localHash ∧ localHash ≠ mod.Hash := by
  unfold stale
  cases h : localMods.get? mod.Name with
  | none => simp
  | some localHash =>
    simp only [ne_eq, Option.some.injEq, decide_eq_true_eq, false_or, reduceCtorEq]
    constructor
    · intro hne; exact ⟨localHash, rfl, hne⟩
    · rintro ⟨l, hl, hne⟩; rw [hl]; exact hne

theorem mem_upToDate (modList : ModList) (localMods : GoMap String) (mod : Mod) :
    mod ∈ upToDate modList localMods
      ↔ mod ∈ modList.Mods ∧ localMods.get? mod.Name = some mod.Hash := by
  simp [upToDate, List.mem_filter]

theorem mem_modsToDownload (modList : ModList) (localMods : GoMap String) (mod : Mod) :
    mod ∈ modsToDownload modList localMods
      ↔ mod ∈ modList.Mods ∧ localMods.get? mod.Name ≠ some mod.Hash := by
  simp [modsToDownload_eq_filter, List.mem_filter, stale]

/-- C1: a name is in the deletion list exactly when it is a key of the delete
map, the local index has it, and the local digest equals the tombstone digest;
so a name that is absent locally, or whose local digest differs from the
tombstone digest, is never in the list. -/
theorem deletion_list_exact (modList : ModList) (localMods : GoMap String) (name : String) :
    (name ∈ modsToDelete modList localMods
      ↔ ∃ digest, modList.Delete.get? name = some digest ∧ localMods.get? name = some digest)
    ∧ (localMods.get? name = none → name ∉ modsToDelete modList localMods)
    ∧ (∀ digest localHash, modList.Delete.get? name = some digest →
        localMods.get? name = some localHash → localHash ≠ digest →
        name ∉ modsToDelete modList localMods) := by
  refine ⟨mem_modsToDelete modList localMods name, ?_, ?_⟩
  · intro habs hmem
    rcases (mem_modsToDelete modList localMods name).1 hmem with ⟨d, _, hloc⟩
    rw [habs] at hloc
    exact Option.noConfusion hloc
  · intro digest localHash hdel hloc hne hmem
    rcases (mem_modsToDelete modList localMods name).1 hmem with ⟨d, hdel2, hloc2⟩
    rw [hdel] at hdel2
    rw [hloc] at hloc2
    have h1 : digest = d := Option.some.inj hdel2
    have h2 : localHash = d := Option.some.inj hloc2
    exact hne (h2.trans h1.symm)

/-- C2: the download list is the manifest's entries, in manifest order, whose
name is absent locally or whose local digest differs from the entry's hash;
every other entry is up to date, so each entry of the manifest is in exactly
one of the download list and the up-to-date class. -/
theorem download_list_exact (modList : ModList) (localMods : GoMap String) :
    modsToDownload modList localMods = modList.Mods.filter (stale localMods)
    ∧ (∀ mod, stale localMods mod = true
        ↔ localMods.get? mod.Name = none
          ∨ ∃ localHash, localMods.get? mod.Name = some localHash ∧ localHash ≠ mod.Hash)
    ∧ (∀ mod ∈ upToDate modList localMods, localMods.get? mod.Name = some mod.Hash)
    ∧ (∀ mod ∈ modList.Mods,
        (mod ∈ modsToDownload modList localMods ∧ mod ∉ upToDate modList localMods)
        ∨ (mod ∉ modsToDownload modList localMods ∧ mod ∈ upToDate modList localMods)) := by
  refine ⟨modsToDownload_eq_filter modList localMods, stale_iff localMods, ?_, ?_⟩
  · intro mod hmod
    exact ((mem_upToDate modList localMods mod).1 hmod).2
  · intro mod hmod
    by_cases h : localMods.get? mod.Name = some mod.Hash
    · right
      refine ⟨fun hd => ((mem_modsToDownload modList localMods mod).1 hd).2 h, ?_⟩
      exact (mem_upToDate modList localMods mod).2 ⟨hmod, h⟩
    · left
      refine ⟨(mem_modsToDownload modList localMods mod).2 ⟨hmod, h⟩, ?_⟩
      exact fun hu => h ((mem_upToDate modList localMods mod).1 hu).2

/-- The scenario of the specification: the listed `a.jar` is up to date, the
listed `b.jar` is missing, the tombstoned `c.jar` is there with the tombstone
digest. -/
theorem reconcile_scenario :
    let modList : ModList :=
      { Mods := [⟨"a.jar", "H1"⟩, ⟨"b.jar", "H2"⟩],
        Delete := GoMap.empty.set "c.jar" "H3" }
    let localMods : GoMap String := (GoMap.empty.set "a.jar" "H1").set "c.jar" "H3"
    modsToDelete modList localMods = ["c.jar"]
      ∧ modsToDownload modList localMods = [⟨"b.jar", "H2"⟩]
      ∧ upToDate modList localMods = [⟨"a.jar", "H1"⟩] := by
  decide

/-! ## Embedded settings: the patch of the build tool and the loader's trimming -/

theorem lastIndexByte_spec (s : Bytes) (c : Nat) :
    (lastIndexByte s c = -1 ∧ c ∉ s)
      ∨ ∃ a b, s = a ++ c :: b ∧ c ∉ b ∧ lastIndexByte s c = (a.length : Int) := by
  induction s with
  | nil => left; simp [lastIndexByte]
  | cons x rest ih =>
    rcases ih with ⟨hr, hnot⟩ | ⟨a, b, hs, hb, hr⟩
    · by_cases hx : x = c
      · right
        refine ⟨[], rest, by simp [hx], hnot, ?_⟩
        simp [lastIndexByte, hr, hx]
      · left
        refine ⟨by simp [lastIndexByte, hr, hx], ?_⟩
        simp only [List.mem_cons, not_or]
        exact ⟨fun h => hx h.symm, hnot⟩
    · right
      refine ⟨x :: a, b, by simp [hs], hb, ?_⟩
      have h0 : (0 : Int) ≤ (a.length : Int) := Int.natCast_nonneg _
      simp only [lastIndexByte, hr, h0, if_true, List.length_cons]
      push_cast
      rfl

theorem lastIndexByte_append (a b : Bytes) (c : Nat) (hb : c ∉ b) :
    lastIndexByte (a ++ c :: b) c = (a.length : Int) := by
  rcases lastIndexByte_spec (a ++ c :: b) c with ⟨_, hnot⟩ | ⟨a2, b2, hs, hb2, hr⟩
  · exact absurd (by simp) hnot
  · rw [hr]
    have hlen : a2.length = a.length := by
      rcases Nat.lt_trichotomy a2.length a.length with hlt | heq | hgt
      · exfalso
        -- the `c` at index `a2.length` of `a` would lie in `b2`
        have h1 : (a ++ c :: b).drop (a2.length + 1) = b2 := by
          rw [hs]; simp
        have h2 : c ∈ (a ++ c :: b).drop (a2.length + 1) := by
          rw [List.drop_append_of_le_length (by omega)]
          simp
        rw [h1] at h2
        exact hb2 h2
      · exact heq
      · exfalso
        have h1 : (a2 ++ c :: b2).drop (a.length + 1) = b := by
          rw [← hs]; simp
        have h2 : c ∈ (a2 ++ c :: b2).drop (a.length + 1) := by
          rw [List.drop_append_of_le_length (by omega)]
          simp
        rw [h1] at h2
        exact hb h2
    rw [hlen]

/-- After the valid prefix of the embedded constant there is no `}`. -/
theorem no_brace_after_validLen (raw : Bytes) : 125 ∉ raw.drop (validLen raw) := by
  unfold validLen trimSettings
  rcases lastIndexByte_spec raw 125 with ⟨hr, _⟩ | ⟨a, b, hs, hb, hr⟩
  · simp [hr]
  · simp only [hr]
    by_cases hpos : (a.length : Int) > 0
    · have hnat : ((a.length : Int) + 1).toNat = a.length + 1 := by omega
      simp only [hpos, if_true, hnat]
      have hle : a.length + 1 ≤ raw.length := by rw [hs]; simp
      rw [List.length_take, Nat.min_eq_left hle, hs]
      simpa using hb
    · simp [hpos]

theorem validLen_le (raw : Bytes) : validLen raw ≤ raw.length := by
  unfold validLen trimSettings
  by_cases h : lastIndexByte raw 125 > 0
  · simp only [h, if_true, List.length_take]; exact Nat.min_le_right _ _
  · simp [h]

theorem bytesIndex_spec (s sep : Bytes) (h : 0 ≤ bytesIndex s sep) :
    ∃ pre post, s = pre ++ sep ++ post ∧ pre.length = (bytesIndex s sep).toNat := by
  induction s with
  | nil =>
    unfold bytesIndex at h ⊢
    by_cases hp : sep.isPrefixOf ([] : Bytes) = true
    · rcases List.isPrefixOf_iff_prefix.1 hp with ⟨post, hpost⟩
      exact ⟨[], post, by simp [hpost], by simp [hp]⟩
    · simp [hp] at h
  | cons x rest ih =>
    unfold bytesIndex at h ⊢
    by_cases hp : sep.isPrefixOf (x :: rest) = true
    · rcases List.isPrefixOf_iff_prefix.1 hp with ⟨post, hpost⟩
      exact ⟨[], post, by simp [hpost], by simp [hp]⟩
    · simp only [hp, Bool.false_eq_true, if_false] at h ⊢
      by_cases hr : 0 ≤ bytesIndex rest sep
      · simp only [hr, if_true] at h ⊢
        rcases ih hr with ⟨pre, post, hs, hlen⟩
        refine ⟨x :: pre, post, by simp [hs], ?_⟩
        simp only [List.length_cons, hlen]
        omega
      · simp [hr] at h

theorem copyAt_append (pre rest src : Bytes) (h : src.length ≤ rest.length) :
    copyAt (pre ++ rest) pre.length src = pre ++ src ++ rest.drop src.length := by
  unfold copyAt
  have h1 : (pre ++ rest).take pre.length = pre := by simp
  have h2 : src.take ((pre ++ rest).length - pre.length) = src := by
    apply List.take_of_length_le
    simp only [List.length_append]
    omega
  have h3 : (pre ++ rest).drop (pre.length + src.length) = rest.drop src.length := by
    rw [List.drop_append_eq_append_drop]
    simp
  rw [h1, h2, h3]

theorem copyCount_append (pre rest src : Bytes) (h : src.length ≤ rest.length) :
    copyCount (pre ++ rest) pre.length src = src.length := by
  unfold copyCount
  simp only [List.length_append]
  omega

/-- The patched binary, when the constant is found and the new settings fit:
the new settings, then the filling of `X`, then the old bytes. -/
theorem patchBinary_eq (pre raw post s : Bytes) (hle : s.length ≤ raw.length)
    (hidx : bytesIndex (pre ++ raw ++ post) raw = (pre.length : Int)) :
    patchBinary (pre ++ raw ++ post) raw (validLen raw) s
      = Except.ok (pre ++ (s ++ List.replicate (validLen raw - s.length) 88
          ++ raw.drop (max s.length (validLen raw))) ++ post) := by
  have hvl := validLen_le raw
  unfold patchBinary
  have hnot : ¬ s.length > raw.length := by omega
  have hnn : ¬ ((pre.length : Int) < 0) := by omega
  simp only [hnot, if_false, hidx, hnn, Int.toNat_ofNat]
  have hfit : s.length ≤ (raw ++ post).length := by simp only [List.length_append]; omega
  rw [List.append_assoc, copyAt_append pre (raw ++ post) s hfit,
    copyCount_append pre (raw ++ post) s hfit]
  have hdrop : (raw ++ post).drop s.length = raw.drop s.length ++ post := by
    rw [List.drop_append_of_le_length hle]
  by_cases hlt : s.length < validLen raw
  · simp only [hlt, if_true]
    have hoff : pre.length + s.length = (pre ++ s).length := by simp
    have hfit2 : (List.replicate (validLen raw - s.length) 88 : Bytes).length
        ≤ ((raw ++ post).drop s.length).length := by
      simp only [List.length_replicate, List.length_drop, List.length_append]
      omega
    rw [hoff, copyAt_append (pre ++ s) _ _ hfit2]
    simp only [List.length_replicate, List.drop_drop]
    have hsum : s.length + (validLen raw - s.length) = validLen raw := by omega
    have hmax : max s.length (validLen raw) = validLen raw := by omega
    rw [hmax]
    have hd2 : (raw ++ post).drop (validLen raw - s.length + s.length)
        = raw.drop (validLen raw) ++ post := by
      rw [Nat.sub_add_cancel (Nat.le_of_lt hlt), List.drop_append_of_le_length hvl]
    rw [Nat.add_comm] at hd2
    rw [hd2]
    simp [List.append_assoc]
  · simp only [hlt, if_false]
    have hz : validLen raw - s.length = 0 := by omega
    have hmax : max s.length (validLen raw) = s.length := by omega
    rw [hz, hmax, hdrop]
    simp [List.append_assoc]

/-- The loader's trimming gives back a byte string that ends in `}` and has at
least two bytes, whatever follows it, as long as no `}` follows. -/
theorem trimSettings_append (s tail : Bytes) (hlen : 2 ≤ s.length)
    (hend : s.getLast? = some 125) (htail : 125 ∉ tail) :
    trimSettings (s ++ tail) = s := by
  rcases List.getLast?_eq_some_iff.1 hend with ⟨front, hfront⟩
  subst hfront
  have hl : 1 ≤ front.length := by
    simp only [List.length_append, List.length_singleton] at hlen; omega
  unfold trimSettings
  have hidx : lastIndexByte (front ++ [125] ++ tail) 125 = (front.length : Int) := by
    rw [List.append_assoc]
    exact lastIndexByte_append front tail 125 htail
  have hpos : (front.length : Int) > 0 := by omega
  have hnat : ((front.length : Int) + 1).toNat = front.length + 1 := by omega
  simp only [hidx, hpos, if_true, hnat]
  have : front.length + 1 = (front ++ [125]).length := by simp
  rw [this, List.take_left']
  rfl

theorem validLen_eq (raw : Bytes) :
    (validLen raw : Int)
      = if lastIndexByte raw 125 > 0 then lastIndexByte raw 125 + 1 else (raw.length : Int) := by
  unfold validLen trimSettings
  rcases lastIndexByte_spec raw 125 with ⟨hr, _⟩ | ⟨a, b, hs, _, hr⟩
  · simp [hr]
  · by_cases hpos : (a.length : Int) > 0
    · have hnat : ((a.length : Int) + 1).toNat = a.length + 1 := by omega
      have hle : a.length + 1 ≤ raw.length := by rw [hs]; simp
      simp only [hr, hpos, if_true, hnat, List.length_take, Nat.min_eq_left hle]
      push_cast
      rfl
    · simp [hr, hpos]

/-- C10: with `valid_len` as the loader computes it (the index of the last `}`
of `raw` plus one when that index is positive, else the length of `raw`), when
the new settings `s` have at least two bytes, end in `}` and are no longer
than the embedded constant `raw`, the tool's patch succeeds on every binary
that holds `raw`; the patched binary has the length of the input; the region
of the constant holds `s`, then `X` up to `valid_len`, then the old bytes of
`raw`, so it has the length of `raw`; and the loader's trimming of that region
gives back exactly `s`. -/
theorem settings_patch_round_trip (bin raw s : Bytes) (hlen : 2 ≤ s.length)
    (hend : s.getLast? = some 125) (hle : s.length ≤ raw.length)
    (hfound : 0 ≤ bytesIndex bin raw) :
    ((validLen raw : Int)
      = if lastIndexByte raw 125 > 0 then lastIndexByte raw 125 + 1 else (raw.length : Int))
    ∧ ∃ out, patchBinary bin raw (validLen raw) s = Except.ok out
      ∧ out.length = bin.length
      ∧ settingsRegion out bin raw
          = s ++ List.replicate (validLen raw - s.length) 88
              ++ raw.drop (max s.length (validLen raw))
      ∧ (settingsRegion out bin raw).length = raw.length
      ∧ trimSettings (settingsRegion out bin raw) = s := by
  rcases bytesIndex_spec bin raw hfound with ⟨pre, post, hbin, hpre⟩
  have hidx : bytesIndex (pre ++ raw ++ post) raw = (pre.length : Int) := by
    rw [← hbin, hpre]; omega
  have hvl := validLen_le raw
  have hreglen : (s ++ List.replicate (validLen raw - s.length) 88
      ++ raw.drop (max s.length (validLen raw))).length = raw.length := by
    simp only [List.length_append, List.length_replicate, List.length_drop]
    omega
  have hregion : settingsRegion
      (pre ++ (s ++ List.replicate (validLen raw - s.length) 88
          ++ raw.drop (max s.length (validLen raw))) ++ post) bin raw
      = s ++ List.replicate (validLen raw - s.length) 88
          ++ raw.drop (max s.length (validLen raw)) := by
    unfold settingsRegion
    rw [← hpre, List.append_assoc, List.drop_left, ← hreglen, List.take_left]
  refine ⟨validLen_eq raw, _, by rw [hbin]; exact patchBinary_eq pre raw post s hle hidx, ?_,
    hregion, ?_, ?_⟩
  · rw [hbin]
    simp only [List.length_append] at hreglen ⊢
    omega
  · rw [hregion]; exact hreglen
  · rw [hregion, List.append_assoc]
    apply trimSettings_append s _ hlen hend
    simp only [List.mem_append, not_or]
    refine ⟨fun h => ?_, fun h => ?_⟩
    · have := List.eq_of_mem_replicate h
      omega
    · have hsub : raw.drop (max s.length (validLen raw))
          = (raw.drop (validLen raw)).drop (max s.length (validLen raw) - validLen raw) := by
        rw [List.drop_drop]
        congr 1
        omega
      rw [hsub] at h
      exact no_brace_after_validLen raw (List.mem_of_mem_drop h)

/-- The round trip on a concrete binary: the constant `{"a":1}` followed by
two line feeds, patched with `{}`. -/
theorem settings_patch_round_trip_witness :
    trimSettings (settingsRegion
        [0, 1, 123, 125, 88, 88, 88, 88, 88, 10, 10, 7]
        [0, 1, 123, 34, 97, 34, 58, 49, 125, 10, 10, 7]
        [123, 34, 97, 34, 58, 49, 125, 10, 10]) = [123, 125]
      ∧ validLen [123, 34, 97, 34, 58, 49, 125, 10, 10] = 7
      ∧ ((validLen [123, 34, 97, 34, 58, 49, 125, 10, 10] : Int)
        = if lastIndexByte [123, 34, 97, 34, 58, 49, 125, 10, 10] 125 > 0
          then lastIndexByte [123, 34, 97, 34, 58, 49, 125, 10, 10] 125 + 1
          else (([123, 34, 97, 34, 58, 49, 125, 10, 10] : Bytes).length : Int))
      ∧ ∃ out, patchBinary [0, 1, 123, 34, 97, 34, 58, 49, 125, 10, 10, 7]
            [123, 34, 97, 34, 58, 49, 125, 10, 10]
            (validLen [123, 34, 97, 34, 58, 49, 125, 10, 10]) [123, 125] = Except.ok out
          ∧ out.length = 12
          ∧ settingsRegion out [0, 1, 123, 34, 97, 34, 58, 49, 125, 10, 10, 7]
                [123, 34, 97, 34, 58, 49, 125, 10, 10]
              = [123, 125] ++ List.replicate
                  (validLen [123, 34, 97, 34, 58, 49, 125, 10, 10] - 2) 88
                ++ List.drop (max 2 (validLen [123, 34, 97, 34, 58, 49, 125, 10, 10]))
                    [123, 34, 97, 34, 58, 49, 125, 10, 10]
          ∧ (settingsRegion out [0, 1, 123, 34, 97, 34, 58, 49, 125, 10, 10, 7]
                [123, 34, 97, 34, 58, 49, 125, 10, 10]).length = 9
          ∧ trimSettings (settingsRegion out [0, 1, 123, 34, 97, 34, 58, 49, 125, 10, 10, 7]
                [123, 34, 97, 34, 58, 49, 125, 10, 10]) = [123, 125] :=
  ⟨by decide, by decide,
    settings_patch_round_trip [0, 1, 123, 34, 97, 34, 58, 49, 125, 10, 10, 7]
      [123, 34, 97, 34, 58, 49, 125, 10, 10] [123, 125] (by decide) (by decide) (by decide)
      (by decide)⟩

/-! ## Manifest construction -/

mutual
theorem walkMods_ok (sha : Bytes → String) :
    ∀ (node : Node) (mods out : List Mod), walkMods sha node mods = Except.ok out →
      ∃ added, out = mods ++ added ∧ node.files.map (entryOf sha) = added.map some
  | Node.file name (some data), mods, out, h => by
    simp only [walkMods, Except.ok.injEq] at h
    exact ⟨[⟨name, sha data⟩], h.symm, by simp [Node.files, entryOf]⟩
  | Node.file name none, mods, out, h => by
    simp [walkMods] at h
  | Node.dir name children, mods, out, h => by
    simp only [walkMods] at h
    rcases walkChildren_ok sha children mods out h with ⟨added, h1, h2⟩
    exact ⟨added, h1, by simpa [Node.files] using h2⟩
theorem walkChildren_ok (sha : Bytes → String) :
    ∀ (children : List Node) (mods out : List Mod),
      walkMods.walkChildren sha children mods = Except.ok out →
      ∃ added, out = mods ++ added
        ∧ (Node.files.filesOfChildren children).map (entryOf sha) = added.map some
  | [], mods, out, h => by
    simp only [walkMods.walkChildren, Except.ok.injEq] at h
    exact ⟨[], by simp [h], by simp [Node.files.filesOfChildren]⟩
  | child :: rest, mods, out, h => by
    simp only [walkMods.walkChildren] at h
    cases hc : walkMods sha child mods with
    | error e => simp [hc] at h
    | ok mods1 =>
      simp only [hc] at h
      rcases walkMods_ok sha child mods mods1 hc with ⟨a1, h1, h2⟩
      rcases walkChildren_ok sha rest mods1 out h with ⟨a2, h3, h4⟩
      refine ⟨a1 ++ a2, by rw [h3, h1, List.append_assoc], ?_⟩
      simp [Node.files.filesOfChildren, h2, h4]
end

theorem names_of_entries (sha : Bytes → String) (files : List (String × Option Bytes))
    (mods : List Mod) (h : files.map (entryOf sha) = mods.map some) :
    mods.map Mod.Name = files.map Prod.fst := by
  induction files generalizing mods with
  | nil =>
    cases mods with
    | nil => rfl
    | cons m ms => simp at h
  | cons f rest ih =>
    cases mods with
    | nil => simp at h
    | cons m ms =>
      simp only [List.map_cons, List.cons.injEq] at h ⊢
      refine ⟨?_, ih ms h.2⟩
      obtain ⟨name, data⟩ := f
      cases data with
      | none => simp [entryOf] at h
      | some d =>
        simp only [entryOf, Option.map_some', Option.some.injEq] at h
        rw [← h.1]

theorem filesOfChildren_flat (children : List Node)
    (h : ∀ c ∈ children, c.isDir = false) :
    (Node.files.filesOfChildren children).map Prod.fst = children.map Node.name := by
  induction children with
  | nil => rfl
  | cons c rest ih =>
    have hc := h c (List.mem_cons_self _ _)
    have hrest := ih (fun c' hc' => h c' (List.mem_cons_of_mem _ hc'))
    cases c with
    | file name data => simp [Node.files.filesOfChildren, Node.files, Node.name, hrest]
    | dir name cs => simp [Node.isDir] at hc

/-- C9, as the code has it: when the walk succeeds the manifest has one entry
per regular file of the tree, in walk order, named by the file's base name and
hashed from its content; so its names are pairwise distinct exactly when the
base names of the regular files are, which holds for a flat mods folder. -/
theorem manifest_one_entry_per_file (sha : Bytes → String) (modsFolder : Node)
    (mods : List Mod) (h : buildMods sha modsFolder = Except.ok mods) :
    modsFolder.files.map (entryOf sha) = mods.map some
    ∧ mods.map Mod.Name = modsFolder.files.map Prod.fst
    ∧ ((mods.map Mod.Name).Nodup ↔ (modsFolder.files.map Prod.fst).Nodup)
    ∧ (modsFolder.isFlat → (mods.map Mod.Name).Nodup) := by
  rcases walkMods_ok sha modsFolder [] mods h with ⟨added, h1, h2⟩
  simp only [List.nil_append] at h1
  subst h1
  have hnames := names_of_entries sha modsFolder.files mods h2
  refine ⟨h2, hnames, by rw [hnames], ?_⟩
  intro hflat
  rw [hnames]
  cases modsFolder with
  | file name data => exact absurd hflat (by simp [Node.isFlat])
  | dir name children =>
    simp only [Node.isFlat] at hflat
    simp only [Node.files]
    rw [filesOfChildren_flat children hflat.1]
    exact hflat.2

/-- The manifest of a flat folder of two files. -/
theorem manifest_one_entry_per_file_witness :
    (Node.dir "mods" [Node.file "a.jar" (some [1]), Node.file "b.jar" (some [2])]).files.map
        (entryOf (fun data => String.mk (data.map Char.ofNat)))
      = [some ⟨"a.jar", String.mk [Char.ofNat 1]⟩, some ⟨"b.jar", String.mk [Char.ofNat 2]⟩]
    ∧ ["a.jar", "b.jar"]
      = (Node.dir "mods" [Node.file "a.jar" (some [1]), Node.file "b.jar" (some [2])]).files.map
          Prod.fst
    ∧ ((["a.jar", "b.jar"] : List String).Nodup
        ↔ ((Node.dir "mods" [Node.file "a.jar" (some [1]),
              Node.file "b.jar" (some [2])]).files.map Prod.fst).Nodup)
    ∧ ((Node.dir "mods" [Node.file "a.jar" (some [1]), Node.file "b.jar" (some [2])]).isFlat
        → (["a.jar", "b.jar"] : List String).Nodup) :=
  manifest_one_entry_per_file (fun data => String.mk (data.map Char.ofNat))
    (Node.dir "mods" [Node.file "a.jar" (some [1]), Node.file "b.jar" (some [2])])
    [⟨"a.jar", String.mk [Char.ofNat 1]⟩, ⟨"b.jar", String.mk [Char.ofNat 2]⟩] rfl

/-- C9 fails on a tree with a sub-directory: `mods/a.jar` and `mods/sub/a.jar`
give two manifest entries named `a.jar`. -/
theorem manifest_names_not_distinct :
    ∃ mods,
      buildMods (fun data => String.mk (data.map Char.ofNat))
        (Node.dir "mods"
          [Node.file "a.jar" (some [1]), Node.dir "sub" [Node.file "a.jar" (some [2])]])
        = Except.ok mods
      ∧ mods.length = 2
      ∧ ¬ (mods.map Mod.Name).Nodup :=
  ⟨[⟨"a.jar", String.mk [Char.ofNat 1]⟩, ⟨"a.jar", String.mk [Char.ofNat 2]⟩], rfl, rfl,
    by decide⟩

/-! ## The download handler -/

theorem splitSlash_no_slash (l : List Char) (h : '/' ∉ l) : splitSlash l = [l] := by
  induction l with
  | nil => rfl
  | cons c rest ih =>
    simp only [List.mem_cons, not_or] at h
    have hc : ¬ c = '/' := fun e => h.1 e.symm
    simp [splitSlash, hc, ih h.2]

theorem splitSlash_append (a b : List Char) (h : '/' ∉ a) :
    splitSlash (a ++ '/' :: b) = a :: splitSlash b := by
  induction a with
  | nil => simp [splitSlash]
  | cons c rest ih =>
    simp only [List.mem_cons, not_or] at h
    have hc : ¬ c = '/' := fun e => h.1 e.symm
    simp [splitSlash, hc, ih h.2]

theorem string_eq_empty_iff (s : String) : s = "" ↔ s.data = [] := by
  constructor
  · intro h; subst h; rfl
  · intro h
    cases s with
    | mk data => simp only at h; subst h; rfl

/-- A bare name joined to a bare folder stays in the folder. -/
theorem filepathJoin_bare (folder name : String) (hf : isBareName folder)
    (hn : isBareName name) :
    filepathJoin folder name = String.mk (folder.data ++ '/' :: name.data) := by
  obtain ⟨f1, f2, f3, f4⟩ := hf
  obtain ⟨n1, n2, n3, n4⟩ := hn
  have hfe : ¬ folder = "" := fun h => f1 ((string_eq_empty_iff folder).1 h)
  have hne : ¬ name = "" := fun h => n1 ((string_eq_empty_iff name).1 h)
  unfold filepathJoin
  simp only [hfe, hne, false_and, if_false]
  unfold filepathClean
  simp only [splitSlash_append folder.data name.data f2, splitSlash_no_slash name.data n2]
  have hroot : ¬ (folder.data ++ '/' :: name.data).head? = some '/' := by
    cases hd : folder.data with
    | nil => exact absurd hd f1
    | cons c rest =>
      rw [hd] at f2
      simp only [List.mem_cons, not_or] at f2
      simp only [List.cons_append, List.head?_cons, Option.some.injEq]
      exact fun e => f2.1 e.symm
  simp only [hroot, decide_False, Bool.false_eq_true, if_false]
  simp [cleanElems, f1, f3, f4, n1, n3, n4, List.intercalate]

/-- A name that starts with `../` leaves a bare folder. -/
theorem filepathJoin_parent (folder name : String) (hf : isBareName folder)
    (hn : isBareName name) :
    filepathJoin folder (String.mk ('.' :: '.' :: '/' :: name.data)) = name := by
  obtain ⟨f1, f2, f3, f4⟩ := hf
  obtain ⟨n1, n2, n3, n4⟩ := hn
  have hfe : ¬ folder = "" := fun h => f1 ((string_eq_empty_iff folder).1 h)
  have hne : ¬ String.mk ('.' :: '.' :: '/' :: name.data) = "" := fun h => by
    have := (string_eq_empty_iff _).1 h
    simp at this
  unfold filepathJoin
  simp only [hfe, hne, false_and, if_false]
  unfold filepathClean
  have hsplit : splitSlash (folder.data ++ '/' :: '.' :: '.' :: '/' :: name.data)
      = [folder.data, ['.', '.'], name.data] := by
    rw [splitSlash_append folder.data _ f2]
    have : ('.' :: '.' :: '/' :: name.data) = ['.', '.'] ++ '/' :: name.data := rfl
    rw [this, splitSlash_append ['.', '.'] name.data (by decide),
      splitSlash_no_slash name.data n2]
  have hroot : ¬ (folder.data ++ '/' :: '.' :: '.' :: '/' :: name.data).head? = some '/' := by
    cases hd : folder.data with
    | nil => exact absurd hd f1
    | cons c rest =>
      rw [hd] at f2
      simp only [List.mem_cons, not_or] at f2
      simp only [List.cons_append, List.head?_cons, Option.some.injEq]
      exact fun e => f2.1 e.symm
  simp only [hsplit, hroot, decide_False, Bool.false_eq_true, if_false]
  simp [cleanElems, f1, f3, f4, n1, n3, n4, List.intercalate]

/-- Under a bare folder two bare names are two files. -/
theorem filepathJoin_bare_injective (folder a b : String) (hf : isBareName folder)
    (ha : isBareName a) (hb : isBareName b)
    (h : filepathJoin folder a = filepathJoin folder b) : a = b := by
  rw [filepathJoin_bare folder a hf ha, filepathJoin_bare folder b hf hb] at h
  have h2 : folder.data ++ '/' :: a.data = folder.data ++ '/' :: b.data :=
    congrArg String.data h
  have h3 : a.data = b.data := by
    have := List.append_cancel_left h2
    exact List.tail_eq_of_cons_eq this
  cases a; cases b
  simp only at h3
  rw [h3]

/-- Names that are not bare can be two names of one file. -/
theorem unclean_name_aliases :
    filepathJoin "mods" "./a.jar" = filepathJoin "mods" "a.jar" ∧ "./a.jar" ≠ "a.jar" := by
  decide

/-- C5, as the code has it: for a non-empty requested name the handler opens
the path that `filepath.Join` makes of the mods folder and the name, whatever
that path is; it answers 404 exactly when that open fails; when the open
succeeds it answers 500 if `file.Stat()` fails and streams the opened file
otherwise. When the mods folder is itself a bare name, a bare requested name
resolves to the file of that name inside the folder, and a name `../x` with
`x` bare resolves to `x` beside the folder, and is followed. -/
theorem handler_opens_resolved_path (modsFolder : String)
    (osOpen : String → Option OpenFile) (modName : String) (hname : modName ≠ "") :
    (downloadHandler modsFolder osOpen modName = Reply.error 404
      ↔ osOpen (filepathJoin modsFolder modName) = none)
    ∧ (∀ file, osOpen (filepathJoin modsFolder modName) = some file →
        downloadHandler modsFolder osOpen modName
          = if file.statOk = true
            then Reply.serve (filepathJoin modsFolder modName) file.content
            else Reply.error 500)
    ∧ (isBareName modsFolder → isBareName modName →
        filepathJoin modsFolder modName = String.mk (modsFolder.data ++ '/' :: modName.data))
    ∧ (∀ x, isBareName modsFolder → isBareName x →
        modName = String.mk ('.' :: '.' :: '/' :: x.data) →
        filepathJoin modsFolder modName = x) := by
  refine ⟨?_, ?_, filepathJoin_bare modsFolder modName, ?_⟩
  · unfold downloadHandler
    simp only [hname, if_false]
    cases ho : osOpen (filepathJoin modsFolder modName) with
    | none => simp
    | some file =>
      by_cases hs : file.statOk = true
      · simp [hs]
      · simp [hs]
  · intro file ho
    unfold downloadHandler
    simp [hname, ho]
  · intro x hf hx hm
    rw [hm]
    exact filepathJoin_parent modsFolder x hf hx

/-- The handler on the request `file=../delete.json`, with `delete.json`
beside the mods folder. -/
theorem handler_opens_resolved_path_witness :
    (downloadHandler "mods"
        (fun path => if path = "delete.json" then some ⟨[123, 125], true⟩ else none)
        "../delete.json" = Reply.error 404
      ↔ (fun path => if path = "delete.json" then some (⟨[123, 125], true⟩ : OpenFile) else none)
          (filepathJoin "mods" "../delete.json") = none)
    ∧ (∀ file,
        (fun path => if path = "delete.json" then some (⟨[123, 125], true⟩ : OpenFile) else none)
          (filepathJoin "mods" "../delete.json") = some file →
        downloadHandler "mods"
          (fun path => if path = "delete.json" then some ⟨[123, 125], true⟩ else none)
          "../delete.json"
          = if file.statOk = true
            then Reply.serve (filepathJoin "mods" "../delete.json") file.content
            else Reply.error 500)
    ∧ (isBareName "mods" → isBareName "../delete.json" →
        filepathJoin "mods" "../delete.json"
          = String.mk ("mods".data ++ '/' :: "../delete.json".data))
    ∧ (∀ x, isBareName "mods" → isBareName x →
        "../delete.json" = String.mk ('.' :: '.' :: '/' :: x.data) →
        filepathJoin "mods" "../delete.json" = x) :=
  handler_opens_resolved_path "mods"
    (fun path => if path = "delete.json" then some ⟨[123, 125], true⟩ else none)
    "../delete.json" (by decide)

/-- C5 fails on the request `file=../delete.json`: the name has a separator
and resolves to `delete.json`, outside the mods folder; the handler opens that
file and streams it instead of answering with an error. -/
theorem handler_follows_parent_path :
    '/' ∈ "../delete.json".data
    ∧ filepathJoin "mods" "../delete.json" = "delete.json"
    ∧ downloadHandler "mods"
        (fun path => if path = "delete.json" then some ⟨[123, 125], true⟩ else none)
        "../delete.json"
      = Reply.serve "delete.json" [123, 125] := by
  decide

/-! ## The download pool: steps and invariants -/

theorem list_set_split {α : Type} (l : List α) (i : Nat) (w : α) (h : l[i]? = some w) :
    ∃ l1 l2, l = l1 ++ w :: l2 ∧ l1.length = i ∧ ∀ w2, l.set i w2 = l1 ++ w2 :: l2 := by
  rcases List.getElem?_eq_some.1 h with ⟨hi, hw⟩
  refine ⟨l.take i, l.drop (i + 1), ?_, ?_, ?_⟩
  · rw [← hw, ← List.drop_eq_getElem_cons hi, List.take_append_drop]
  · simp [List.length_take, Nat.min_eq_left (Nat.le_of_lt hi)]
  · intro w2
    exact List.set_eq_take_cons_drop w2 hi

theorem work_sound (p q : Pool) (id : Nat) (h : p.work id = some q) : Step p q := by
  unfold Pool.work at h
  cases hw : p.workers[id]? with
  | none => simp [hw] at h
  | some w =>
    rcases list_set_split p.workers id w hw with ⟨l1, l2, hsplit, hlen, hset⟩
    simp only [hw, hset] at h
    cases hph : w.phase with
    | exited => simp [hph] at h
    | idle =>
      simp only [hph] at h
      cases hch : p.ch with
      | nil =>
        simp only [hch] at h
        by_cases hc : p.closed = true
        · simp only [hc, if_true, Option.some.injEq] at h
          rw [← h]
          have hs := Step.exit p l1 l2 w hsplit hph hch hc
          simp only [hch, hc] at hs
          exact hs
        · simp [hc] at h
      | cons t rest =>
        simp only [hch, Option.some.injEq] at h
        rw [← h]
        exact Step.recv p l1 l2 w t rest hsplit hph hch
    | got t =>
      simp only [hph] at h
      cases hf : t.fate.get with
      | none =>
        simp only [hf, Option.some.injEq] at h
        rw [← h, ← hlen]
        exact Step.getErr p l1 l2 w t hsplit hph hf
      | some resp =>
        simp only [hf, Option.some.injEq] at h
        rw [← h]
        exact Step.getOk p l1 l2 w t resp hsplit hph hf
    | opened t resp =>
      simp only [hph] at h
      by_cases hf : t.fate.create = true
      · simp only [hf, if_true, Option.some.injEq] at h
        rw [← h]
        exact Step.createOk p l1 l2 w t resp hsplit hph hf
      · simp only [hf, Bool.false_eq_true, if_false, Option.some.injEq] at h
        rw [← h, ← hlen]
        exact Step.createErr p l1 l2 w t resp hsplit hph (by simpa using hf)
    | created t resp =>
      simp only [hph] at h
      cases hf : t.fate.copyErr with
      | some written =>
        simp only [hf, Option.some.injEq] at h
        rw [← h, ← hlen]
        exact Step.copyErr p l1 l2 w t resp written hsplit hph hf
      | none =>
        simp only [hf, Option.some.injEq] at h
        rw [← h]
        exact Step.copyOk p l1 l2 w t resp hsplit hph hf

theorem step_sound (p q : Pool) (a : Action) (h : p.step a = some q) : Step p q := by
  cases a with
  | send =>
    unfold Pool.step at h
    cases hp : p.pending with
    | nil => simp [hp] at h
    | cons t rest =>
      simp only [hp] at h
      by_cases hc : p.ch.length < chanCap
      · simp only [hc, if_true, Option.some.injEq] at h
        rw [← h]
        exact Step.send p t rest hp hc
      · simp [hc] at h
  | close =>
    unfold Pool.step at h
    by_cases hc : p.pending = [] ∧ p.closed = false
    · rw [if_pos hc] at h
      rw [← Option.some.inj h]
      exact Step.close p hc.1 hc.2
    · rw [if_neg hc] at h
      exact Option.noConfusion h
  | wait =>
    unfold Pool.step at h
    by_cases hc : p.closed = true ∧ p.done = false
        ∧ p.workers.all (fun w => decide (w.phase = Phase.exited)) = true
    · rw [if_pos hc] at h
      rw [← Option.some.inj h]
      refine Step.wait p hc.1 hc.2.1 ?_
      intro w hw
      have := List.all_eq_true.1 hc.2.2 w hw
      simpa using this
    · rw [if_neg hc] at h
      exact Option.noConfusion h
  | work id => exact work_sound p q id h

theorem requested_append (a b : List Event) : requested (a ++ b) = requested a ++ requested b := by
  induction a with
  | nil => rfl
  | cons e rest ih => cases e <;> simp [requested, ih]

theorem completed_append (a b : List Event) : completed (a ++ b) = completed a ++ completed b := by
  induction a with
  | nil => rfl
  | cons e rest ih => cases e <;> simp [completed, ih]

theorem failed_append (a b : List Event) : failed (a ++ b) = failed a ++ failed b := by
  induction a with
  | nil => rfl
  | cons e rest ih => cases e <;> simp [failed, ih]

theorem inv_count_step (tasks : List Task) (p q : Pool)
    (h : ∀ t, (completed p.log).count t + (failed p.log).count t + p.inFlight.count t
      + p.ch.count t + p.pending.count t = tasks.count t)
    (hs : Step p q) :
    ∀ t, (completed q.log).count t + (failed q.log).count t + q.inFlight.count t
      + q.ch.count t + q.pending.count t = tasks.count t := by
  intro t0
  have h0 := h t0
  cases hs <;>
    simp only [Pool.inFlight, List.flatMap_append, List.flatMap_cons, Worker.holding,
      completed_append, failed_append, completed, failed, List.count_append, List.count_cons,
      List.count_nil, List.append_nil, Nat.add_zero, Nat.zero_add, *] at h0 ⊢ <;>
    omega

theorem inv_req_step (p q : Pool)
    (h : ∀ t, (requested p.log).count t
      = (completed p.log).count t + (failed p.log).count t + p.started.count t)
    (hs : Step p q) :
    ∀ t, (requested q.log).count t
      = (completed q.log).count t + (failed q.log).count t + q.started.count t := by
  intro t0
  have h0 := h t0
  cases hs <;>
    simp only [Pool.started, List.flatMap_append, List.flatMap_cons, Worker.started,
      completed_append, failed_append, requested_append, completed, failed, requested,
      List.count_append, List.count_cons,
      List.count_nil, List.append_nil, Nat.add_zero, Nat.zero_add, *] at h0 ⊢ <;>
    omega

theorem mem_workers_split {l1 l2 : List Worker} {w w2 x : Worker} {ws : List Worker}
    (hw : ws = l1 ++ w :: l2) (hx : x ∈ l1 ++ w2 :: l2) : x = w2 ∨ x ∈ ws := by
  rw [hw]
  simp only [List.mem_append, List.mem_cons] at hx ⊢
  rcases hx with h | h | h
  · exact Or.inr (Or.inl h)
  · exact Or.inl h
  · exact Or.inr (Or.inr (Or.inr h))

theorem mem_workers_self {l1 l2 : List Worker} {w : Worker} {ws : List Worker}
    (hw : ws = l1 ++ w :: l2) : w ∈ ws := by
  rw [hw]; simp

theorem forall_workers_replace (P : Worker → Prop) {l1 l2 : List Worker} {w w2 : Worker}
    {ws : List Worker} (hw : ws = l1 ++ w :: l2) (hP : ∀ x ∈ ws, P x) (h2 : P w2) :
    ∀ x ∈ l1 ++ w2 :: l2, P x := by
  intro x hx
  rcases mem_workers_split hw hx with h | h
  · rw [h]; exact h2
  · exact hP x h

theorem inv_step (tasks : List Task) (p q : Pool) (h : Inv tasks p) (hs : Step p q) :
    Inv tasks q := by
  refine ⟨inv_count_step tasks p q h.count hs, inv_req_step p q h.req hs, ?_, ?_, ?_, ?_, ?_,
    ?_, ?_, ?_⟩
  · -- okc
    have hokc := h.okc
    have hcreated := h.created
    cases hs <;> simp only [completed_append, completed, List.append_nil] <;> try exact hokc
    case copyOk l1 l2 w t resp hw hph hf =>
      intro t0 ht0
      simp only [List.mem_append, List.mem_singleton] at ht0
      rcases ht0 with ht0 | ht0
      · exact hokc t0 ht0
      · subst ht0
        have := hcreated w (mem_workers_self hw) t0 resp hph
        simp [Task.fails, this.1, this.2, hf]
  · -- errc
    have herrc := h.errc
    cases hs <;> simp only [failed_append, failed, List.append_nil] <;> try exact herrc
    case getErr l1 l2 w t hw hph hf =>
      intro t0 ht0
      simp only [List.mem_append, List.mem_singleton] at ht0
      rcases ht0 with ht0 | ht0
      · exact herrc t0 ht0
      · subst ht0; simp [Task.fails, hf]
    case createErr l1 l2 w t resp hw hph hf =>
      intro t0 ht0
      simp only [List.mem_append, List.mem_singleton] at ht0
      rcases ht0 with ht0 | ht0
      · exact herrc t0 ht0
      · subst ht0; simp [Task.fails, hf]
    case copyErr l1 l2 w t resp written hw hph hf =>
      intro t0 ht0
      simp only [List.mem_append, List.mem_singleton] at ht0
      rcases ht0 with ht0 | ht0
      · exact herrc t0 ht0
      · subst ht0; simp [Task.fails, hf]
  · -- opened
    have hopened := h.opened
    cases hs with
    | send t rest hp hc => exact hopened
    | close hp hc => exact hopened
    | wait hc hd hw => exact hopened
    | recv l1 l2 w t rest hw hph hch =>
      exact forall_workers_replace _ hw hopened (by intro t0 r0 h0; simp at h0)
    | exit l1 l2 w hw hph hch hc =>
      exact forall_workers_replace _ hw hopened (by intro t0 r0 h0; simp at h0)
    | getErr l1 l2 w t hw hph hf =>
      exact forall_workers_replace _ hw hopened (by intro t0 r0 h0; simp at h0)
    | getOk l1 l2 w t resp hw hph hf =>
      refine forall_workers_replace _ hw hopened ?_
      intro t0 r0 h0
      simp only [Phase.opened.injEq] at h0
      obtain ⟨rfl, rfl⟩ := h0
      exact hf
    | createErr l1 l2 w t resp hw hph hf =>
      exact forall_workers_replace _ hw hopened (by intro t0 r0 h0; simp at h0)
    | createOk l1 l2 w t resp hw hph hf =>
      exact forall_workers_replace _ hw hopened (by intro t0 r0 h0; simp at h0)
    | copyErr l1 l2 w t resp written hw hph hf =>
      exact forall_workers_replace _ hw hopened (by intro t0 r0 h0; simp at h0)
    | copyOk l1 l2 w t resp hw hph hf =>
      exact forall_workers_replace _ hw hopened (by intro t0 r0 h0; simp at h0)
  · -- created
    have hcreated := h.created
    have hopened := h.opened
    cases hs with
    | send t rest hp hc => exact hcreated
    | close hp hc => exact hcreated
    | wait hc hd hw => exact hcreated
    | recv l1 l2 w t rest hw hph hch =>
      exact forall_workers_replace _ hw hcreated (by intro t0 r0 h0; simp at h0)
    | exit l1 l2 w hw hph hch hc =>
      exact forall_workers_replace _ hw hcreated (by intro t0 r0 h0; simp at h0)
    | getErr l1 l2 w t hw hph hf =>
      exact forall_workers_replace _ hw hcreated (by intro t0 r0 h0; simp at h0)
    | getOk l1 l2 w t resp hw hph hf =>
      exact forall_workers_replace _ hw hcreated (by intro t0 r0 h0; simp at h0)
    | createErr l1 l2 w t resp hw hph hf =>
      exact forall_workers_replace _ hw hcreated (by intro t0 r0 h0; simp at h0)
    | createOk l1 l2 w t resp hw hph hf =>
      refine forall_workers_replace _ hw hcreated ?_
      intro t0 r0 h0
      simp only [Phase.created.injEq] at h0
      obtain ⟨rfl, rfl⟩ := h0
      exact ⟨hopened w (mem_workers_self hw) _ _ hph, hf⟩
    | copyErr l1 l2 w t resp written hw hph hf =>
      exact forall_workers_replace _ hw hcreated (by intro t0 r0 h0; simp at h0)
    | copyOk l1 l2 w t resp hw hph hf =>
      exact forall_workers_replace _ hw hcreated (by intro t0 r0 h0; simp at h0)
  · -- closed
    have hclosed := h.closed
    cases hs <;> try exact hclosed
    case send t rest hp hc =>
      intro hcl
      have := hclosed hcl
      rw [hp] at this
      exact absurd this (by simp)
    case close hp hc => intro _; exact hp
  · -- exited
    have hexited := h.exited
    have hclosed := h.closed
    cases hs with
    | send t rest hp hc =>
      intro x hx hxe
      have := hclosed (hexited x hx hxe).1
      rw [hp] at this
      exact absurd this (by simp)
    | close hp hc =>
      intro x hx hxe
      exact ⟨rfl, (hexited x hx hxe).2⟩
    | wait hc hd hw => exact hexited
    | recv l1 l2 w t rest hw hph hch =>
      intro x hx hxe
      rcases mem_workers_split hw hx with hx1 | hx1
      · subst hx1; simp at hxe
      · have := (hexited x hx1 hxe).2
        rw [hch] at this
        exact absurd this (by simp)
    | exit l1 l2 w hw hph hch hc =>
      intro x hx hxe
      exact ⟨hc, hch⟩
    | getErr l1 l2 w t hw hph hf =>
      exact forall_workers_replace _ hw hexited (by intro h0; simp at h0)
    | getOk l1 l2 w t resp hw hph hf =>
      exact forall_workers_replace _ hw hexited (by intro h0; simp at h0)
    | createErr l1 l2 w t resp hw hph hf =>
      exact forall_workers_replace _ hw hexited (by intro h0; simp at h0)
    | createOk l1 l2 w t resp hw hph hf =>
      exact forall_workers_replace _ hw hexited (by intro h0; simp at h0)
    | copyErr l1 l2 w t resp written hw hph hf =>
      exact forall_workers_replace _ hw hexited (by intro h0; simp at h0)
    | copyOk l1 l2 w t resp hw hph hf =>
      exact forall_workers_replace _ hw hexited (by intro h0; simp at h0)
  · -- done
    have hdone := h.done
    have hclosed := h.closed
    have hbusy : ∀ (w : Worker), w ∈ p.workers → w.phase ≠ Phase.exited → p.done = true → False :=
      fun w hw hne hd => hne ((hdone hd).2 w hw)
    cases hs with
    | send t rest hp hc =>
      intro hd
      have := hclosed (hdone hd).1
      rw [hp] at this
      exact absurd this (by simp)
    | close hp hc =>
      intro hd
      have := (hdone hd).1
      rw [hc] at this
      exact absurd this (by simp)
    | wait hc hd hw => intro _; exact ⟨hc, hw⟩
    | recv l1 l2 w t rest hw hph hch =>
      intro hd; exact (hbusy w (mem_workers_self hw) (by rw [hph]; simp) hd).elim
    | exit l1 l2 w hw hph hch hc =>
      intro hd; exact (hbusy w (mem_workers_self hw) (by rw [hph]; simp) hd).elim
    | getErr l1 l2 w t hw hph hf =>
      intro hd; exact (hbusy w (mem_workers_self hw) (by rw [hph]; simp) hd).elim
    | getOk l1 l2 w t resp hw hph hf =>
      intro hd; exact (hbusy w (mem_workers_self hw) (by rw [hph]; simp) hd).elim
    | createErr l1 l2 w t resp hw hph hf =>
      intro hd; exact (hbusy w (mem_workers_self hw) (by rw [hph]; simp) hd).elim
    | createOk l1 l2 w t resp hw hph hf =>
      intro hd; exact (hbusy w (mem_workers_self hw) (by rw [hph]; simp) hd).elim
    | copyErr l1 l2 w t resp written hw hph hf =>
      intro hd; exact (hbusy w (mem_workers_self hw) (by rw [hph]; simp) hd).elim
    | copyOk l1 l2 w t resp hw hph hf =>
      intro hd; exact (hbusy w (mem_workers_self hw) (by rw [hph]; simp) hd).elim
  · -- size
    have hsize := h.size
    cases hs with
    | send t rest hp hc => exact hsize
    | close hp hc => exact hsize
    | wait hc hd hw => exact hsize
    | recv l1 l2 w t rest hw hph hch => rw [hw] at hsize; simpa using hsize
    | exit l1 l2 w hw hph hch hc => rw [hw] at hsize; simpa using hsize
    | getErr l1 l2 w t hw hph hf => rw [hw] at hsize; simpa using hsize
    | getOk l1 l2 w t resp hw hph hf => rw [hw] at hsize; simpa using hsize
    | createErr l1 l2 w t resp hw hph hf => rw [hw] at hsize; simpa using hsize
    | createOk l1 l2 w t resp hw hph hf => rw [hw] at hsize; simpa using hsize
    | copyErr l1 l2 w t resp written hw hph hf => rw [hw] at hsize; simpa using hsize
    | copyOk l1 l2 w t resp hw hph hf => rw [hw] at hsize; simpa using hsize

theorem inv_init (tasks : List Task) (dir : GoMap Bytes) : Inv tasks (Pool.init tasks dir) := by
  refine ⟨?_, ?_, ?_, ?_, ?_, ?_, ?_, ?_, ?_, ?_⟩
  · intro t
    simp [Pool.init, Pool.inFlight, completed, failed, poolSize, List.replicate,
      Worker.holding]
  · intro t
    simp [Pool.init, Pool.started, completed, failed, requested, poolSize, List.replicate,
      Worker.started]
  · intro t ht; simp [Pool.init, completed] at ht
  · intro t ht; simp [Pool.init, failed] at ht
  · intro w hw t r hph
    simp only [Pool.init] at hw
    rw [List.eq_of_mem_replicate hw] at hph
    simp at hph
  · intro w hw t r hph
    simp only [Pool.init] at hw
    rw [List.eq_of_mem_replicate hw] at hph
    simp at hph
  · intro h; simp [Pool.init] at h
  · intro w hw hph
    simp only [Pool.init] at hw
    rw [List.eq_of_mem_replicate hw] at hph
    simp at hph
  · intro h; simp [Pool.init] at h
  · simp [Pool.init]

theorem inv_run (tasks : List Task) (sched : List Action) :
    ∀ (p q : Pool), Inv tasks p → p.run sched = some q → Inv tasks q := by
  induction sched with
  | nil =>
    intro p q h hr
    simp only [Pool.run, Option.some.injEq] at hr
    rw [← hr]; exact h
  | cons a rest ih =>
    intro p q h hr
    simp only [Pool.run] at hr
    cases hs : p.step a with
    | none => simp [hs] at hr
    | some p1 =>
      simp only [hs] at hr
      exact ih p1 q (inv_step tasks p p1 h (step_sound p p1 a hs)) hr

theorem flatMap_holding_exited (ws : List Worker) (h : ∀ w ∈ ws, w.phase = Phase.exited) :
    ws.flatMap Worker.holding = [] ∧ ws.flatMap Worker.started = [] := by
  induction ws with
  | nil => simp
  | cons w rest ih =>
    have hw := h w (List.mem_cons_self _ _)
    have hrest := ih (fun x hx => h x (List.mem_cons_of_mem _ hx))
    simp [List.flatMap_cons, Worker.holding, Worker.started, hw, hrest.1, hrest.2]

/-- When the batch is over nothing is left in the channel, with the main
goroutine or with a worker. -/
theorem inv_done (tasks : List Task) (p : Pool) (h : Inv tasks p) (hd : p.done = true) :
    p.pending = [] ∧ p.ch = [] ∧ p.inFlight = [] ∧ p.started = [] := by
  obtain ⟨hclosed, hall⟩ := h.done hd
  have hpos : 0 < p.workers.length := by rw [h.size]; decide
  obtain ⟨w, hw⟩ := List.exists_mem_of_length_pos hpos
  have hex := flatMap_holding_exited p.workers hall
  exact ⟨h.closed hclosed, (h.exited w hw (hall w hw)).2, hex.1, hex.2⟩

theorem count_done (tasks : List Task) (p : Pool) (h : Inv tasks p) (hd : p.done = true)
    (t : Task) :
    (completed p.log).count t + (failed p.log).count t = tasks.count t
    ∧ (requested p.log).count t = tasks.count t := by
  obtain ⟨h1, h2, h3, h4⟩ := inv_done tasks p h hd
  have hc := h.count t
  have hr := h.req t
  rw [h1, h2, h3] at hc
  rw [h4] at hr
  simp only [List.count_nil, Nat.add_zero] at hc hr
  exact ⟨hc, by omega⟩

theorem completed_perm_done (tasks : List Task) (p : Pool) (h : Inv tasks p)
    (hd : p.done = true) :
    (completed p.log).Perm (tasks.filter (fun t => !t.fails)) := by
  rw [List.perm_iff_count]
  intro t
  have hc := (count_done tasks p h hd t).1
  cases hf : t.fails with
  | false =>
    have : (failed p.log).count t = 0 := by
      rw [List.count_eq_zero]
      intro hm
      have := h.errc t hm
      rw [hf] at this
      exact Bool.noConfusion this
    rw [List.count_filter (by simp [hf])]
    omega
  | true =>
    have h1 : (completed p.log).count t = 0 := by
      rw [List.count_eq_zero]
      intro hm
      have := h.okc t hm
      rw [hf] at this
      exact Bool.noConfusion this
    have h2 : (tasks.filter (fun t => !t.fails)).count t = 0 := by
      rw [List.count_eq_zero]
      intro hm
      have := (List.mem_filter.1 hm).2
      simp [hf] at this
    rw [h1, h2]

theorem failed_perm_done (tasks : List Task) (p : Pool) (h : Inv tasks p)
    (hd : p.done = true) :
    (failed p.log).Perm (tasks.filter (fun t => t.fails)) := by
  rw [List.perm_iff_count]
  intro t
  have hc := (count_done tasks p h hd t).1
  cases hf : t.fails with
  | true =>
    have : (completed p.log).count t = 0 := by
      rw [List.count_eq_zero]
      intro hm
      have := h.okc t hm
      rw [hf] at this
      exact Bool.noConfusion this
    rw [List.count_filter (by simp [hf])]
    omega
  | false =>
    have h1 : (failed p.log).count t = 0 := by
      rw [List.count_eq_zero]
      intro hm
      have := h.errc t hm
      rw [hf] at this
      exact Bool.noConfusion this
    have h2 : (tasks.filter (fun t => t.fails)).count t = 0 := by
      rw [List.count_eq_zero]
      intro hm
      have := (List.mem_filter.1 hm).2
      simp [hf] at this
    rw [h1, h2]

theorem requested_perm_done (tasks : List Task) (p : Pool) (h : Inv tasks p)
    (hd : p.done = true) : (requested p.log).Perm tasks := by
  rw [List.perm_iff_count]
  intro t
  exact (count_done tasks p h hd t).2

/-! ### The mods folder during the batch -/

theorem mem_inFlight_of_holding (p : Pool) {l1 l2 : List Worker} {w : Worker} {t : Task}
    (hw : p.workers = l1 ++ w :: l2) (ht : t ∈ w.holding) : t ∈ p.inFlight := by
  simp only [Pool.inFlight, hw, List.flatMap_append, List.flatMap_cons, List.mem_append]
  exact Or.inr (Or.inl ht)

theorem mem_tasks_of_inFlight (tasks : List Task) (p : Pool) (h : Inv tasks p) (t : Task)
    (ht : t ∈ p.inFlight) : t ∈ tasks := by
  have hc := h.count t
  have hpos : 0 < p.inFlight.count t := List.count_pos_iff.2 ht
  exact List.count_pos_iff.1 (by omega)

theorem mem_tasks_of_completed (tasks : List Task) (p : Pool) (h : Inv tasks p) (t : Task)
    (ht : t ∈ completed p.log) : t ∈ tasks := by
  have hc := h.count t
  have hpos : 0 < (completed p.log).count t := List.count_pos_iff.2 ht
  exact List.count_pos_iff.1 (by omega)

theorem created_witness_stays {l1 l2 : List Worker} {w0 w1 : Worker} {ws : List Worker}
    (hw : ws = l1 ++ w0 :: l2) (name : String)
    (hex : ∃ w ∈ ws, ∃ t2 r, w.phase = Phase.created t2 r ∧ t2.mod.Name = name)
    (hne : ∀ t2 r, w0.phase = Phase.created t2 r → t2.mod.Name ≠ name) :
    ∃ w ∈ l1 ++ w1 :: l2, ∃ t2 r, w.phase = Phase.created t2 r ∧ t2.mod.Name = name := by
  rcases hex with ⟨w, hmem, t2, r, hph, hname⟩
  rw [hw] at hmem
  simp only [List.mem_append, List.mem_cons] at hmem
  rcases hmem with h | h | h
  · exact ⟨w, by simp [h], t2, r, hph, hname⟩
  · rw [h] at hph
    exact absurd hname (hne t2 r hph)
  · exact ⟨w, by simp [h], t2, r, hph, hname⟩

theorem dirInv_step (tasks : List Task) (dir0 : GoMap Bytes) (p q : Pool) (h : Inv tasks p)
    (hd : DirInv tasks dir0 p) (hs : Step p q) : DirInv tasks dir0 q := by
  obtain ⟨hunt, hwr⟩ := hd
  -- a write under the name of a held task leaves the other names alone
  have hset : ∀ (l1 l2 : List Worker) (w : Worker) (t : Task) (data : Bytes),
      p.workers = l1 ++ w :: l2 → t ∈ w.holding →
      ∀ name, (∀ t ∈ tasks, t.mod.Name ≠ name) →
          (p.dir.set t.mod.Name data).get? name = dir0.get? name := by
    intro l1 l2 w t data hw ht name hname
    have hin := mem_inFlight_of_holding p hw ht
    have hne : ¬ name = t.mod.Name :=
      fun e => hname t (mem_tasks_of_inFlight tasks p h t hin) e.symm
    rw [GoMap.get?_set, if_neg hne]
    exact hunt name hname
  -- a step that writes nothing and moves a worker that is not about to copy
  have hkeep : ∀ (l1 l2 : List Worker) (w0 w1 : Worker),
      p.workers = l1 ++ w0 :: l2 → (∀ t2 r, w0.phase ≠ Phase.created t2 r) →
      ∀ t ∈ completed p.log, (∀ t2 ∈ tasks, t2.mod.Name = t.mod.Name → t2 = t) →
        (∃ w ∈ l1 ++ w1 :: l2, ∃ t2 r, w.phase = Phase.created t2 r
            ∧ t2.mod.Name = t.mod.Name)
        ∨ (∃ r, t.fate.get = some r ∧ p.dir.get? t.mod.Name = some r.Body) := by
    intro l1 l2 w0 w1 hw hph t ht huniq
    rcases hwr t ht huniq with hex | hfile
    · exact Or.inl (created_witness_stays hw t.mod.Name hex
        (fun t2 r h2 => absurd h2 (hph t2 r)))
    · exact Or.inr hfile
  cases hs with
  | send t rest hp hc =>
    exact ⟨hunt, by simpa [completed_append, completed] using hwr⟩
  | close hp hc => exact ⟨hunt, hwr⟩
  | wait hc hd hw => exact ⟨hunt, hwr⟩
  | recv l1 l2 w t rest hw hph hch =>
    exact ⟨hunt, hkeep l1 l2 w _ hw (by intro t2 r; rw [hph]; simp)⟩
  | exit l1 l2 w hw hph hch hc =>
    exact ⟨hunt, hkeep l1 l2 w _ hw (by intro t2 r; rw [hph]; simp)⟩
  | getErr l1 l2 w t hw hph hf =>
    refine ⟨hunt, ?_⟩
    have := hkeep l1 l2 w { w with phase := Phase.idle } hw (by intro t2 r; rw [hph]; simp)
    simpa [completed_append, completed] using this
  | getOk l1 l2 w t resp hw hph hf =>
    refine ⟨hunt, ?_⟩
    have := hkeep l1 l2 w
      { w with phase := Phase.opened t resp, openBodies := w.openBodies + 1 } hw
      (by intro t2 r; rw [hph]; simp)
    simpa [completed_append, completed] using this
  | createErr l1 l2 w t resp hw hph hf =>
    refine ⟨hunt, ?_⟩
    have := hkeep l1 l2 w { w with phase := Phase.idle } hw (by intro t2 r; rw [hph]; simp)
    simpa [completed_append, completed] using this
  | createOk l1 l2 w t resp hw hph hf =>
    refine ⟨hset l1 l2 w t [] hw (by simp [Worker.holding, hph]), ?_⟩
    intro t0 h0 huniq
    by_cases hname : t.mod.Name = t0.mod.Name
    · exact Or.inl
        ⟨{ w with phase := Phase.created t resp, openFiles := w.openFiles + 1 },
          by simp, t, resp, rfl, hname⟩
    · rcases hwr t0 h0 huniq with hex | ⟨r, hr, hfile⟩
      · exact Or.inl (created_witness_stays hw t0.mod.Name hex
          (fun t2 r h2 => by rw [hph] at h2; simp at h2))
      · refine Or.inr ⟨r, hr, ?_⟩
        show (p.dir.set t.mod.Name []).get? t0.mod.Name = some r.Body
        rw [GoMap.get?_set, if_neg (fun e => hname e.symm)]
        exact hfile
  | copyErr l1 l2 w t resp written hw hph hf =>
    refine ⟨hset l1 l2 w t written hw (by simp [Worker.holding, hph]), ?_⟩
    intro t0 h0 huniq
    have h0' : t0 ∈ completed p.log := by
      simpa [completed_append, completed] using h0
    have htasks : t ∈ tasks := mem_tasks_of_inFlight tasks p h t
      (mem_inFlight_of_holding p hw (by simp [Worker.holding, hph]))
    by_cases hname : t.mod.Name = t0.mod.Name
    · exfalso
      have heq := huniq t htasks hname
      have hok := h.okc t0 h0'
      rw [← heq] at hok
      simp [Task.fails, hf] at hok
    · rcases hwr t0 h0' huniq with hex | ⟨r, hr, hfile⟩
      · refine Or.inl (created_witness_stays hw t0.mod.Name hex ?_)
        intro t2 r h2
        rw [hph] at h2
        simp only [Phase.created.injEq] at h2
        rw [← h2.1]
        exact hname
      · refine Or.inr ⟨r, hr, ?_⟩
        show (p.dir.set t.mod.Name written).get? t0.mod.Name = some r.Body
        rw [GoMap.get?_set, if_neg (fun e => hname e.symm)]
        exact hfile
  | copyOk l1 l2 w t resp hw hph hf =>
    refine ⟨hset l1 l2 w t resp.Body hw (by simp [Worker.holding, hph]), ?_⟩
    intro t0 h0 huniq
    have htasks : t ∈ tasks := mem_tasks_of_inFlight tasks p h t
      (mem_inFlight_of_holding p hw (by simp [Worker.holding, hph]))
    by_cases hname : t.mod.Name = t0.mod.Name
    · have heq := huniq t htasks hname
      refine Or.inr ⟨resp, ?_, ?_⟩
      · rw [← heq]
        exact (h.created w (mem_workers_self hw) t resp hph).1
      · show (p.dir.set t.mod.Name resp.Body).get? t0.mod.Name = some resp.Body
        rw [GoMap.get?_set, if_pos hname.symm]
    · have h0' : t0 ∈ completed p.log := by
        simp only [completed_append, completed, List.mem_append, List.mem_singleton] at h0
        rcases h0 with h0 | h0
        · exact h0
        · exact absurd (by rw [h0]) hname
      rcases hwr t0 h0' huniq with hex | ⟨r, hr, hfile⟩
      · refine Or.inl (created_witness_stays hw t0.mod.Name hex ?_)
        intro t2 r h2
        rw [hph] at h2
        simp only [Phase.created.injEq] at h2
        rw [← h2.1]
        exact hname
      · refine Or.inr ⟨r, hr, ?_⟩
        show (p.dir.set t.mod.Name resp.Body).get? t0.mod.Name = some r.Body
        rw [GoMap.get?_set, if_neg (fun e => hname e.symm)]
        exact hfile

theorem dirInv_run (tasks : List Task) (dir0 : GoMap Bytes) (sched : List Action) :
    ∀ (p q : Pool), Inv tasks p → DirInv tasks dir0 p → p.run sched = some q →
      DirInv tasks dir0 q := by
  induction sched with
  | nil =>
    intro p q h hd hr
    simp only [Pool.run, Option.some.injEq] at hr
    rw [← hr]; exact hd
  | cons a rest ih =>
    intro p q h hd hr
    simp only [Pool.run] at hr
    cases hs : p.step a with
    | none => simp [hs] at hr
    | some p1 =>
      simp only [hs] at hr
      have hst := step_sound p p1 a hs
      exact ih p1 q (inv_step tasks p p1 h hst) (dirInv_step tasks dir0 p p1 h hd hst) hr

theorem dirInv_init (tasks : List Task) (dir : GoMap Bytes) :
    DirInv tasks dir (Pool.init tasks dir) :=
  ⟨fun _ _ => rfl, fun t ht => by simp [Pool.init, completed] at ht⟩

/-- When the batch is over, the file of a task reported complete holds the body
of its response, provided every task of that name is that task. -/
theorem written_done (tasks : List Task) (dir0 : GoMap Bytes) (p : Pool) (h : Inv tasks p)
    (hdir : DirInv tasks dir0 p) (hd : p.done = true) (t : Task)
    (ht : t ∈ completed p.log) (huniq : ∀ t2 ∈ tasks, t2.mod.Name = t.mod.Name → t2 = t) :
    ∃ r, t.fate.get = some r ∧ p.dir.get? t.mod.Name = some r.Body := by
  rcases hdir.written t ht huniq with ⟨w, hw, t2, r, hph, _⟩ | hfile
  · have := (h.done hd).2 w hw
    rw [hph] at this
    exact Phase.noConfusion this
  · exact hfile

/-! ### A complete schedule exists -/

theorem run_append (s1 s2 : List Action) :
    ∀ (p q : Pool), p.run s1 = some q → p.run (s1 ++ s2) = q.run s2 := by
  induction s1 with
  | nil =>
    intro p q h
    simp only [Pool.run, Option.some.injEq] at h
    rw [h]; rfl
  | cons a rest ih =>
    intro p q h
    simp only [Pool.run, List.cons_append] at h ⊢
    cases hs : p.step a with
    | none => simp [hs] at h
    | some p1 =>
      simp only [hs] at h ⊢
      exact ih p1 q h

theorem task_steps_run (t : Task) (rest : List Task) (closed done : Bool)
    (a b : Nat) (ws : List Worker) (dir : GoMap Bytes) (log : List Event) :
    ∃ dir1 log1,
      Pool.run ⟨t :: rest, [], closed, ⟨Phase.idle, a, b⟩ :: ws, dir, log, done⟩ t.steps
        = some ⟨rest, [], closed,
            ⟨Phase.idle, a + answered [t], b + createdFiles [t]⟩ :: ws, dir1, log1, done⟩ := by
  obtain ⟨mod, ⟨get, create, copyErr⟩⟩ := t
  cases get with
  | none =>
    apply Exists.intro; apply Exists.intro
    simp [Task.steps, Pool.run, Pool.step, Pool.work, chanCap, answered, createdFiles]
    exact ⟨rfl, rfl⟩
  | some resp =>
    cases create with
    | false =>
      apply Exists.intro; apply Exists.intro
      simp [Task.steps, Pool.run, Pool.step, Pool.work, chanCap, answered, createdFiles]
      exact ⟨rfl, rfl⟩
    | true =>
      cases copyErr with
      | none =>
        apply Exists.intro; apply Exists.intro
        simp [Task.steps, Pool.run, Pool.step, Pool.work, chanCap, answered, createdFiles]
        exact ⟨rfl, rfl⟩
      | some written =>
        apply Exists.intro; apply Exists.intro
        simp [Task.steps, Pool.run, Pool.step, Pool.work, chanCap, answered, createdFiles]
        exact ⟨rfl, rfl⟩

theorem feed_run (tasks : List Task) :
    ∀ (closed done : Bool) (a b : Nat) (ws : List Worker) (dir : GoMap Bytes)
      (log : List Event),
    ∃ dir1 log1,
      Pool.run ⟨tasks, [], closed, ⟨Phase.idle, a, b⟩ :: ws, dir, log, done⟩
          (feedSchedule tasks)
        = some ⟨[], [], closed,
            ⟨Phase.idle, a + answered tasks, b + createdFiles tasks⟩ :: ws, dir1, log1, done⟩ := by
  induction tasks with
  | nil =>
    intro closed done a b ws dir log
    exact ⟨dir, log, by simp [feedSchedule, Pool.run, answered, createdFiles]⟩
  | cons t rest ih =>
    intro closed done a b ws dir log
    rcases task_steps_run t rest closed done a b ws dir log with ⟨dir1, log1, h1⟩
    rcases ih closed done (a + answered [t]) (b + createdFiles [t]) ws dir1 log1
      with ⟨dir2, log2, h2⟩
    refine ⟨dir2, log2, ?_⟩
    have hsched : feedSchedule (t :: rest) = t.steps ++ feedSchedule rest := by
      simp [feedSchedule, List.flatMap_cons]
    rw [hsched, run_append _ _ _ _ h1, h2]
    have ha : a + answered [t] + answered rest = a + answered (t :: rest) := by
      simp only [answered, List.filter_cons, List.filter_nil]
      split
      · simp only [List.length_cons, List.length_nil]; omega
      · simp only [List.length_nil]; omega
    have hb : b + createdFiles [t] + createdFiles rest = b + createdFiles (t :: rest) := by
      simp only [createdFiles, List.filter_cons, List.filter_nil]
      split
      · simp only [List.length_cons, List.length_nil]; omega
      · simp only [List.length_nil]; omega
    rw [ha, hb]

theorem closing_run (a b : Nat) (dir : GoMap Bytes) (log : List Event) :
    Pool.run ⟨[], [], false,
          ⟨Phase.idle, a, b⟩ :: List.replicate 9 ⟨Phase.idle, 0, 0⟩, dir, log, false⟩
        (Action.close :: ((List.range poolSize).map Action.work ++ [Action.wait]))
      = some ⟨[], [], true, List.replicate 10 ⟨Phase.exited, 0, 0⟩, dir, log, true⟩ := by
  simp [Pool.run, Pool.step, Pool.work, poolSize, List.range, List.range.loop, List.replicate]

/-- The batch, run task by task on worker 0: just before the channel is
closed, worker 0 still holds open every body and every file it has opened. -/
theorem feed_run_init (tasks : List Task) (dir : GoMap Bytes) :
    ∃ dir1 log1,
      (Pool.init tasks dir).run (feedSchedule tasks)
        = some ⟨[], [], false,
            ⟨Phase.idle, answered tasks, createdFiles tasks⟩
              :: List.replicate 9 ⟨Phase.idle, 0, 0⟩, dir1, log1, false⟩ := by
  rcases feed_run tasks false false 0 0 (List.replicate 9 ⟨Phase.idle, 0, 0⟩) dir []
    with ⟨dir1, log1, h⟩
  refine ⟨dir1, log1, ?_⟩
  have hi : Pool.init tasks dir
      = ⟨tasks, [], false, ⟨Phase.idle, 0, 0⟩ :: List.replicate 9 ⟨Phase.idle, 0, 0⟩, dir, [],
          false⟩ := by
    simp [Pool.init, poolSize, List.replicate]
  rw [hi, h]
  simp

/-- Every batch has a complete run. -/
theorem seq_run_done (tasks : List Task) (dir : GoMap Bytes) :
    ∃ p, (Pool.init tasks dir).run (seqSchedule tasks) = some p ∧ p.done = true := by
  rcases feed_run_init tasks dir with ⟨dir1, log1, h⟩
  refine ⟨⟨[], [], true, List.replicate 10 ⟨Phase.exited, 0, 0⟩, dir1, log1, true⟩, ?_, rfl⟩
  unfold seqSchedule
  rw [run_append _ _ _ _ h]
  exact closing_run _ _ dir1 log1

/-! ### Every run is finite and can be completed -/

theorem fuel_step (p q : Pool) (hs : Step p q) : q.fuel < p.fuel := by
  cases hs <;>
    simp only [Pool.fuel, List.map_append, List.map_cons, List.sum_append, List.sum_cons,
      List.length_append, List.length_cons, List.length_nil, Phase.weight, *] <;>
    simp <;> omega

theorem fuel_run (sched : List Action) :
    ∀ (p q : Pool), p.run sched = some q → q.fuel + sched.length ≤ p.fuel := by
  induction sched with
  | nil =>
    intro p q h
    simp only [Pool.run, Option.some.injEq] at h
    rw [h]; simp
  | cons a rest ih =>
    intro p q h
    simp only [Pool.run] at h
    cases hs : p.step a with
    | none => simp [hs] at h
    | some p1 =>
      simp only [hs] at h
      have h1 := fuel_step p p1 (step_sound p p1 a hs)
      have h2 := ih p1 q h
      simp only [List.length_cons]
      omega

theorem fuel_init (tasks : List Task) (dir : GoMap Bytes) :
    (Pool.init tasks dir).fuel = 6 * tasks.length + 12 := by
  simp [Pool.fuel, Pool.init, poolSize, List.replicate, Phase.weight]

theorem exists_index_of_mem (ws : List Worker) (w : Worker) (h : w ∈ ws) :
    ∃ i : Nat, ws[i]? = some w := by
  rcases List.mem_iff_getElem.1 h with ⟨i, hi, hw⟩
  exact ⟨i, by rw [List.getElem?_eq_getElem hi, hw]⟩

/-- A worker that holds a task can always move. -/
theorem work_busy (p : Pool) (i : Nat) (w : Worker) (hi : p.workers[i]? = some w)
    (hb : w.phase ≠ Phase.idle) (he : w.phase ≠ Phase.exited) : ∃ q, p.work i = some q := by
  unfold Pool.work
  simp only [hi]
  cases hph : w.phase with
  | idle => exact absurd hph hb
  | exited => exact absurd hph he
  | got t =>
    simp only
    cases t.fate.get <;> exact ⟨_, rfl⟩
  | opened t resp =>
    simp only
    cases t.fate.create <;> exact ⟨_, rfl⟩
  | created t resp =>
    simp only
    cases t.fate.copyErr <;> exact ⟨_, rfl⟩

/-- As long as the batch is not over, some goroutine can move. -/
theorem step_enabled (tasks : List Task) (p : Pool) (h : Inv tasks p) (hd : p.done = false) :
    ∃ a q, p.step a = some q := by
  by_cases hbusy : ∃ w ∈ p.workers, w.phase ≠ Phase.idle ∧ w.phase ≠ Phase.exited
  · rcases hbusy with ⟨w, hw, hb, he⟩
    rcases exists_index_of_mem p.workers w hw with ⟨i, hi⟩
    rcases work_busy p i w hi hb he with ⟨q, hq⟩
    exact ⟨Action.work i, q, hq⟩
  · have hrest : ∀ w ∈ p.workers, w.phase = Phase.idle ∨ w.phase = Phase.exited := by
      intro w hw
      by_contra hne
      simp only [not_or] at hne
      exact hbusy ⟨w, hw, hne.1, hne.2⟩
    have hpos : 0 < p.workers.length := by rw [h.size]; decide
    -- when the channel holds a task no worker has left, so worker 0 can receive
    have hrecv : ∀ t rest, p.ch = t :: rest → ∃ a q, p.step a = some q := by
      intro t rest hch
      cases hws : p.workers with
      | nil => rw [hws] at hpos; simp at hpos
      | cons w0 ws =>
        have hw0 : w0 ∈ p.workers := by rw [hws]; simp
        have hidle : w0.phase = Phase.idle := by
          rcases hrest w0 hw0 with h0 | h0
          · exact h0
          · have := (h.exited w0 hw0 h0).2
            rw [hch] at this
            exact absurd this (by simp)
        have hsome : (p.step (Action.work 0)).isSome = true := by
          simp [Pool.step, Pool.work, hws, hidle, hch]
        rcases Option.isSome_iff_exists.1 hsome with ⟨q, hq⟩
        exact ⟨Action.work 0, q, hq⟩
    cases hch : p.ch with
    | cons t rest => exact hrecv t rest hch
    | nil =>
      cases hp : p.pending with
      | cons t rest =>
        have hsome : (p.step Action.send).isSome = true := by
          simp [Pool.step, hp, hch, chanCap]
        rcases Option.isSome_iff_exists.1 hsome with ⟨q, hq⟩
        exact ⟨Action.send, q, hq⟩
      | nil =>
        by_cases hc : p.closed = true
        · by_cases hidle : ∃ w ∈ p.workers, w.phase = Phase.idle
          · rcases hidle with ⟨w, hw, hph⟩
            rcases exists_index_of_mem p.workers w hw with ⟨i, hi⟩
            have hsome : (p.step (Action.work i)).isSome = true := by
              simp [Pool.step, Pool.work, hi, hph, hch, hc]
            rcases Option.isSome_iff_exists.1 hsome with ⟨q, hq⟩
            exact ⟨Action.work i, q, hq⟩
          · have hall : ∀ w ∈ p.workers, w.phase = Phase.exited := by
              intro w hw
              rcases hrest w hw with h0 | h0
              · exact absurd ⟨w, hw, h0⟩ hidle
              · exact h0
            refine ⟨Action.wait, { p with done := true }, ?_⟩
            have hallb : p.workers.all (fun w => decide (w.phase = Phase.exited)) = true := by
              rw [List.all_eq_true]
              intro w hw
              simpa using hall w hw
            simp [Pool.step, hc, hd, hallb]
        · have hc2 : p.closed = false := by simpa using hc
          have hsome : (p.step Action.close).isSome = true := by
            simp [Pool.step, hp, hc2]
          rcases Option.isSome_iff_exists.1 hsome with ⟨q, hq⟩
          exact ⟨Action.close, q, hq⟩

/-- From every state the batch can reach, it can be run to its end. -/
theorem run_can_complete (tasks : List Task) :
    ∀ (n : Nat) (p : Pool), p.fuel = n → Inv tasks p →
      ∃ sched q, p.run sched = some q ∧ q.done = true := by
  intro n
  induction n using Nat.strong_induction_on with
  | _ n ih =>
    intro p hn hinv
    by_cases hd : p.done = true
    · exact ⟨[], p, rfl, hd⟩
    · have hd2 : p.done = false := by simpa using hd
      rcases step_enabled tasks p hinv hd2 with ⟨a, q, hs⟩
      have hst := step_sound p q a hs
      have hlt := fuel_step p q hst
      rcases ih q.fuel (by omega) q rfl (inv_step tasks p q hinv hst) with ⟨sched, r, hr, hdone⟩
      exact ⟨a :: sched, r, by simp [Pool.run, hs, hr], hdone⟩

/-! ### The claims on the download pool -/

theorem inFlight_length_le (ws : List Worker) :
    (ws.flatMap Worker.holding).length ≤ ws.length := by
  induction ws with
  | nil => simp
  | cons w rest ih =>
    simp only [List.flatMap_cons, List.length_append, List.length_cons]
    have : w.holding.length ≤ 1 := by
      unfold Worker.holding
      split <;> simp
    omega

/-- At every moment of every run at most `poolSize` downloads are in flight. -/
theorem inFlight_le_poolSize (tasks : List Task) (dir : GoMap Bytes) (sched : List Action)
    (p : Pool) (hrun : (Pool.init tasks dir).run sched = some p) :
    p.inFlight.length ≤ poolSize := by
  have h := inv_run tasks sched _ p (inv_init tasks dir) hrun
  rw [← h.size]
  exact inFlight_length_le p.workers

theorem mem_completed_done (tasks : List Task) (p : Pool) (h : Inv tasks p)
    (hd : p.done = true) (t : Task) :
    t ∈ completed p.log ↔ t ∈ tasks ∧ t.fails = false := by
  rw [(completed_perm_done tasks p h hd).mem_iff, List.mem_filter]
  simp

theorem mem_failed_done (tasks : List Task) (p : Pool) (h : Inv tasks p)
    (hd : p.done = true) (t : Task) :
    t ∈ failed p.log ↔ t ∈ tasks ∧ t.fails = true := by
  rw [(failed_perm_done tasks p h hd).mem_iff, List.mem_filter]

/-- C6, as the code has it: under every interleaving of the goroutines and
every assignment of request, create and copy errors to the tasks, a run of the
batch takes at most `6 * n + 12` steps for `n` tasks and can, from wherever it
stands, be run to its end; and when it is over: the requests issued are the
tasks, each once; the tasks reported complete are the tasks that meet no
error; the tasks reported as failures are the tasks that meet one, so the
number of failure reports is the number of failing tasks; and, the names of
the list being bare file names, the file of a task that meets no error holds
the body of its response provided every task of the list with that file name
is that same task, as is the case when the names of the list are pairwise
distinct. (A worker writes the file `filepath.Join(config.ModsFolder, name)`,
which for a bare name is the file `name` of the folder and no other name's.) -/
theorem pool_partial_failure_isolation (tasks : List Task) (dir : GoMap Bytes)
    (sched : List Action) (p : Pool)
    (hrun : (Pool.init tasks dir).run sched = some p) :
    sched.length ≤ 6 * tasks.length + 12
    ∧ (∃ sched2 q, p.run sched2 = some q ∧ q.done = true)
    ∧ (p.done = true →
        (requested p.log).Perm tasks
        ∧ (completed p.log).Perm (tasks.filter (fun t => !t.fails))
        ∧ (failed p.log).Perm (tasks.filter (fun t => t.fails))
        ∧ (failed p.log).length = (tasks.filter (fun t => t.fails)).length
        ∧ ((∀ t ∈ tasks, isBareName t.mod.Name) → ∀ t ∈ tasks, t.fails = false →
            (∀ t2 ∈ tasks, t2.mod.Name = t.mod.Name → t2 = t) →
            ∃ r, t.fate.get = some r ∧ p.dir.get? t.mod.Name = some r.Body)
        ∧ ((∀ t ∈ tasks, isBareName t.mod.Name) → (tasks.map (fun t => t.mod.Name)).Nodup →
            ∀ t ∈ tasks, t.fails = false →
            ∃ r, t.fate.get = some r ∧ p.dir.get? t.mod.Name = some r.Body)) := by
  have h := inv_run tasks sched _ p (inv_init tasks dir) hrun
  have hdir := dirInv_run tasks dir sched _ p (inv_init tasks dir) (dirInv_init tasks dir) hrun
  refine ⟨?_, run_can_complete tasks p.fuel p rfl h, ?_⟩
  · have hf := fuel_run sched _ p hrun
    rw [fuel_init] at hf
    omega
  · intro hdone
    have hwritten : ∀ t ∈ tasks, t.fails = false →
        (∀ t2 ∈ tasks, t2.mod.Name = t.mod.Name → t2 = t) →
        ∃ r, t.fate.get = some r ∧ p.dir.get? t.mod.Name = some r.Body :=
      fun t ht hf huniq => written_done tasks dir p h hdir hdone t
        ((mem_completed_done tasks p h hdone t).2 ⟨ht, hf⟩) huniq
    refine ⟨requested_perm_done tasks p h hdone, completed_perm_done tasks p h hdone,
      failed_perm_done tasks p h hdone, (failed_perm_done tasks p h hdone).length_eq,
      fun _ => hwritten, ?_⟩
    intro _ hnd t ht hf
    exact hwritten t ht hf (fun t2 ht2 hname => List.inj_on_of_nodup_map hnd ht2 ht hname)

/-- The example of the specification: five tasks, the third fails; the other
four are reported complete and written, and one failure is reported. -/
theorem pool_partial_failure_isolation_witness :
    ∃ p, (Pool.init fiveTasks GoMap.empty).run fiveSchedule = some p
      ∧ p.done = true
      ∧ (completed p.log).map (fun t => t.mod.Name) = ["m1.jar", "m5.jar", "m4.jar", "m2.jar"]
      ∧ (failed p.log).map (fun t => t.mod.Name) = ["m3.jar"]
      ∧ p.dir.get? "m3.jar" = none
      ∧ (p.dir.get? "m1.jar", p.dir.get? "m2.jar", p.dir.get? "m4.jar", p.dir.get? "m5.jar")
          = (some [1], some [2], some [4], some [5])
      ∧ ((requested p.log).Perm fiveTasks
        ∧ (completed p.log).Perm (fiveTasks.filter (fun t => !t.fails))
        ∧ (failed p.log).Perm (fiveTasks.filter (fun t => t.fails))
        ∧ (failed p.log).length = (fiveTasks.filter (fun t => t.fails)).length
        ∧ ((∀ t ∈ fiveTasks, isBareName t.mod.Name) → ∀ t ∈ fiveTasks, t.fails = false →
            (∀ t2 ∈ fiveTasks, t2.mod.Name = t.mod.Name → t2 = t) →
            ∃ r, t.fate.get = some r ∧ p.dir.get? t.mod.Name = some r.Body)
        ∧ ((∀ t ∈ fiveTasks, isBareName t.mod.Name) →
            (fiveTasks.map (fun t => t.mod.Name)).Nodup →
            ∀ t ∈ fiveTasks, t.fails = false →
            ∃ r, t.fate.get = some r ∧ p.dir.get? t.mod.Name = some r.Body)) :=
  ⟨_, rfl, rfl, by decide, by decide, by decide, by decide,
    (pool_partial_failure_isolation fiveTasks GoMap.empty fiveSchedule _ rfl).2.2 rfl⟩

/-- C6 fails on a list with one file name twice: two downloads of `a.jar`, the
first meets no error, the copy of the second breaks off after one byte. The
first is reported complete, yet when the batch is over `a.jar` holds the one
byte the failing download wrote and not the three bytes of the response. -/
theorem same_name_file_overwritten :
    ∃ p, (Pool.init sameNameTasks GoMap.empty).run (seqSchedule sameNameTasks) = some p
      ∧ p.done = true
      ∧ (completed p.log).map (fun t => (t.mod, t.fails, t.fate.get))
          = [(⟨"a.jar", "H1"⟩, false, some ⟨200, [1, 2, 3]⟩)]
      ∧ (failed p.log).map (fun t => t.mod) = [⟨"a.jar", "H2"⟩]
      ∧ p.dir.get? "a.jar" = some [1] :=
  ⟨_, rfl, rfl, by decide, by decide, by decide⟩

/-- C7, as the code has it: in every complete run a task is reported as a
failure exactly when its request, its create or its copy returns an error, and
is reported complete otherwise; the status code of the response plays no part,
so a task answered with any status, 404 included, whose body is copied to the
file is reported complete and not as a failure. -/
theorem failure_reports_ignore_status (tasks : List Task) (dir : GoMap Bytes)
    (sched : List Action) (p : Pool)
    (hrun : (Pool.init tasks dir).run sched = some p) (hdone : p.done = true) :
    (∀ t ∈ tasks, (t ∈ failed p.log
        ↔ t.fate.get = none ∨ t.fate.create = false ∨ t.fate.copyErr ≠ none))
    ∧ (∀ t ∈ tasks, (t ∈ completed p.log
        ↔ ∃ resp, t.fate.get = some resp ∧ t.fate.create = true ∧ t.fate.copyErr = none))
    ∧ (∀ t ∈ tasks, ∀ code body, t.fate = ⟨some ⟨code, body⟩, true, none⟩ →
        t ∈ completed p.log ∧ t ∉ failed p.log) := by
  have h := inv_run tasks sched _ p (inv_init tasks dir) hrun
  have hfails : ∀ t : Task, t.fails = true
      ↔ t.fate.get = none ∨ t.fate.create = false ∨ t.fate.copyErr ≠ none := by
    intro t
    obtain ⟨mod, ⟨get, create, copyErr⟩⟩ := t
    cases get <;> cases create <;> cases copyErr <;> simp [Task.fails]
  have hok : ∀ t : Task, t.fails = false
      ↔ ∃ resp, t.fate.get = some resp ∧ t.fate.create = true ∧ t.fate.copyErr = none := by
    intro t
    obtain ⟨mod, ⟨get, create, copyErr⟩⟩ := t
    cases get <;> cases create <;> cases copyErr <;> simp [Task.fails]
  refine ⟨?_, ?_, ?_⟩
  · intro t ht
    rw [mem_failed_done tasks p h hdone t, ← hfails t]
    exact ⟨fun hh => hh.2, fun hh => ⟨ht, hh⟩⟩
  · intro t ht
    rw [mem_completed_done tasks p h hdone t, ← hok t]
    exact ⟨fun hh => hh.2, fun hh => ⟨ht, hh⟩⟩
  · intro t ht code body hfate
    have hf : t.fails = false := by simp [Task.fails, hfate]
    refine ⟨(mem_completed_done tasks p h hdone t).2 ⟨ht, hf⟩, ?_⟩
    intro hm
    have := ((mem_failed_done tasks p h hdone t).1 hm).2
    rw [hf] at this
    exact Bool.noConfusion this

/-- The reports of a run on the one download the server answers with 404. -/
theorem failure_reports_ignore_status_witness :
    ∃ p, (Pool.init [missingTask] GoMap.empty).run (seqSchedule [missingTask]) = some p
      ∧ p.done = true
      ∧ (∀ t ∈ [missingTask], (t ∈ failed p.log
          ↔ t.fate.get = none ∨ t.fate.create = false ∨ t.fate.copyErr ≠ none))
      ∧ (∀ t ∈ [missingTask], (t ∈ completed p.log
          ↔ ∃ resp, t.fate.get = some resp ∧ t.fate.create = true ∧ t.fate.copyErr = none))
      ∧ (∀ t ∈ [missingTask], ∀ code body, t.fate = ⟨some ⟨code, body⟩, true, none⟩ →
          t ∈ completed p.log ∧ t ∉ failed p.log) :=
  ⟨_, rfl, rfl,
    failure_reports_ignore_status [missingTask] GoMap.empty (seqSchedule [missingTask]) _ rfl rfl⟩

/-- C7 fails on a download the server answers with `404 Not Found`: the worker
writes the error text into `b.jar`, reports the download complete, and
reports no failure. -/
theorem non2xx_reported_complete :
    ∃ p, (Pool.init [missingTask] GoMap.empty).run (seqSchedule [missingTask]) = some p
      ∧ p.done = true
      ∧ missingTask.fate.get = some ⟨404, notFoundBody⟩
      ∧ completed p.log = [missingTask]
      ∧ failed p.log = []
      ∧ p.dir.get? "b.jar" = some notFoundBody :=
  ⟨_, rfl, rfl, rfl, by decide, by decide, by decide⟩

/-- C8 on the code: whatever the number of downloads, when they all succeed
there is a moment of the batch at which as many response bodies and as many
destination files are open as there are downloads, while no more than
`poolSize` downloads are in flight: the deferred closes of lines 226 and 233
run only when a worker leaves its loop. -/
theorem open_handles_grow_with_tasks (mods : List Mod) (body : Mod → Bytes)
    (dir : GoMap Bytes) :
    ∃ sched p,
      (Pool.init (mods.map (fun mod => ⟨mod, allSucceed body mod⟩)) dir).run sched = some p
      ∧ p.openBodies = mods.length
      ∧ p.openFiles = mods.length
      ∧ p.inFlight.length ≤ poolSize := by
  rcases feed_run_init (mods.map (fun mod => ⟨mod, allSucceed body mod⟩)) dir
    with ⟨dir1, log1, h⟩
  refine ⟨_, _, h, ?_, ?_, inFlight_le_poolSize _ dir _ _ h⟩
  · have hall : answered (mods.map (fun mod => (⟨mod, allSucceed body mod⟩ : Task)))
        = mods.length := by
      unfold answered
      rw [List.filter_eq_self.2, List.length_map]
      intro t ht
      rcases List.mem_map.1 ht with ⟨m, _, rfl⟩
      rfl
    simp [Pool.openBodies, hall, List.replicate]
  · have hall : createdFiles (mods.map (fun mod => (⟨mod, allSucceed body mod⟩ : Task)))
        = mods.length := by
      unfold createdFiles
      rw [List.filter_eq_self.2, List.length_map]
      intro t ht
      rcases List.mem_map.1 ht with ⟨m, _, rfl⟩
      rfl
    simp [Pool.openFiles, hall, List.replicate]

/-! ## One client run and the next reconciliation -/

theorem foldl_scan_get? (sha : Bytes → String) (name : String) :
    ∀ (es : List (String × Bytes)) (acc : GoMap String), (es.map Prod.fst).Nodup →
      (es.foldl (fun localMods f => localMods.set f.1 (sha f.2)) acc).get? name
        = match lookupEntries es name with
          | some data => some (sha data)
          | none => acc.get? name := by
  intro es
  induction es with
  | nil => intro acc _; rfl
  | cons e rest ih =>
    intro acc hnd
    obtain ⟨k, v⟩ := e
    simp only [List.map_cons, List.nodup_cons] at hnd
    rw [List.foldl_cons, ih _ hnd.2]
    by_cases hk : k = name
    · subst hk
      rw [lookupEntries_none_of_not_mem rest k hnd.1]
      simp [lookupEntries, GoMap.get?_set]
    · have hk2 : ¬ name = k := fun h => hk h.symm
      simp only [lookupEntries, hk, if_false, GoMap.get?_set, hk2]

theorem lookupEntries_perm {β : Type} (es es2 : List (String × β)) (hp : es.Perm es2)
    (hnd : (es2.map Prod.fst).Nodup) (key : String) :
    lookupEntries es key = lookupEntries es2 key := by
  have hnd1 : (es.map Prod.fst).Nodup := (hp.map Prod.fst).nodup_iff.2 hnd
  cases h2 : lookupEntries es2 key with
  | some v =>
    exact (mem_iff_lookupEntries es hnd1 key v).1
      (hp.mem_iff.2 ((mem_iff_lookupEntries es2 hnd key v).2 h2))
  | none =>
    cases h1 : lookupEntries es key with
    | none => rfl
    | some v =>
      have := (mem_iff_lookupEntries es2 hnd key v).1
        (hp.mem_iff.1 ((mem_iff_lookupEntries es hnd1 key v).2 h1))
      rw [h2] at this
      exact Option.noConfusion this

theorem flatMap_snd_nil (ds : List (String × List (String × Bytes)))
    (h : ∀ d ∈ ds, d.2 = []) : ds.flatMap Prod.snd = [] := by
  induction ds with
  | nil => rfl
  | cons d rest ih =>
    rw [List.flatMap_cons, h d (List.mem_cons_self _ _),
      ih (fun x hx => h x (List.mem_cons_of_mem _ hx))]
    rfl

theorem flatMap_singletons (es : List (String × Bytes)) :
    (es.map (fun f => (f.1, [f]))).flatMap Prod.snd = es := by
  induction es with
  | nil => rfl
  | cons e rest ih => simp [List.flatMap_cons, ih]

/-- The walk of a flat folder visits the files directly in it, each once. -/
theorem walked_perm_of_flat (folder : LocalFolder) (hflat : folder.isFlat) :
    folder.walked.Perm folder.files.entries := by
  unfold LocalFolder.walked
  have h1 := List.Perm.flatMap_right (Prod.snd : String × List (String × Bytes) → _)
    (List.perm_insertionSort (fun a b : String × List (String × Bytes) =>
        nameLE a.1.data b.1.data = true)
      (folder.files.entries.map (fun f => (f.1, [f])) ++ folder.subdirs))
  rw [List.flatMap_append, flatMap_singletons, flatMap_snd_nil folder.subdirs hflat,
    List.append_nil] at h1
  exact h1

/-- The local index of a flat folder has, under each file name, the digest of
the file's content. -/
theorem scanLocal_get? (sha : Bytes → String) (folder : LocalFolder) (hflat : folder.isFlat)
    (name : String) :
    (scanLocal sha folder).get? name = (folder.files.get? name).map sha := by
  unfold scanLocal
  have hp := walked_perm_of_flat folder hflat
  have hnd : (folder.walked.map Prod.fst).Nodup :=
    (hp.map Prod.fst).nodup_iff.2 folder.files.nodup
  rw [foldl_scan_get? sha name folder.walked GoMap.empty hnd,
    lookupEntries_perm folder.walked folder.files.entries hp folder.files.nodup name]
  unfold GoMap.get?
  cases lookupEntries folder.files.entries name <;> rfl

theorem removeAll_get? (names : List String) (name : String) :
    ∀ (dir : GoMap Bytes),
      (removeAll dir names).get? name = if name ∈ names then none else dir.get? name := by
  induction names with
  | nil => intro dir; simp [removeAll]
  | cons n rest ih =>
    intro dir
    have hstep : removeAll dir (n :: rest) = removeAll (dir.delete n) rest := rfl
    rw [hstep, ih, GoMap.get?_delete]
    by_cases h1 : name ∈ rest
    · simp [h1]
    · by_cases h2 : name = n
      · simp [h2]
      · simp [h1, h2]

/-- The files of the folder after a batch in which every download succeeds:
the file of an entry whose name no entry of the download list has with
another hash holds the body sent for it, and a file no entry names is as it
was. -/
theorem batch_all_succeed (mods : List Mod) (body : Mod → Bytes) (dir : GoMap Bytes)
    (sched : List Action) (p : Pool)
    (hrun : (Pool.init (mods.map (fun mod => ⟨mod, allSucceed body mod⟩)) dir).run sched
      = some p)
    (hdone : p.done = true) :
    (∀ m ∈ mods, (∀ m2 ∈ mods, m2.Name = m.Name → m2.Hash = m.Hash) →
        p.dir.get? m.Name = some (body m))
    ∧ (∀ name, (∀ m ∈ mods, m.Name ≠ name) → p.dir.get? name = dir.get? name) := by
  have h := inv_run _ sched _ p (inv_init _ dir) hrun
  have hdir := dirInv_run _ dir sched _ p (inv_init _ dir) (dirInv_init _ dir) hrun
  constructor
  · intro m hm hfun
    have hmem : (⟨m, allSucceed body m⟩ : Task)
        ∈ mods.map (fun mod => (⟨mod, allSucceed body mod⟩ : Task)) :=
      List.mem_map.2 ⟨m, hm, rfl⟩
    have hc := (mem_completed_done _ p h hdone ⟨m, allSucceed body m⟩).2 ⟨hmem, rfl⟩
    have huniq : ∀ t2 ∈ mods.map (fun mod => (⟨mod, allSucceed body mod⟩ : Task)),
        t2.mod.Name = m.Name → t2 = ⟨m, allSucceed body m⟩ := by
      intro t2 ht2 hname
      rcases List.mem_map.1 ht2 with ⟨m2, hm2, rfl⟩
      have hhash := hfun m2 hm2 hname
      have heq : m2 = m := by
        cases m2; cases m
        simp only [Mod.mk.injEq]
        exact ⟨hname, hhash⟩
      rw [heq]
    rcases written_done _ dir p h hdir hdone _ hc huniq with ⟨r, hr, hget⟩
    simp only [allSucceed, Option.some.injEq] at hr
    rw [← hr] at hget
    exact hget
  · intro name hname
    apply hdir.untouched
    intro t ht
    rcases List.mem_map.1 ht with ⟨m, hm, rfl⟩
    exact hname m hm

theorem deletePass_get? (dir : GoMap Bytes) (names : List String) (name : String) :
    (deletePass dir names true).get? name = if name ∈ names then none else dir.get? name := by
  unfold deletePass
  cases names with
  | nil => simp
  | cons n rest =>
    have hpos : (n :: rest).length > 0 ∧ true = true := ⟨by simp, rfl⟩
    rw [if_pos hpos]
    exact removeAll_get? _ name dir

theorem downloadPass_spec (dir dir2 : GoMap Bytes) (mods : List Mod) (body : Mod → Bytes)
    (sched : List Action)
    (hrun : downloadPass dir mods true (allSucceed body) sched = some dir2) :
    (∀ m ∈ mods, (∀ m2 ∈ mods, m2.Name = m.Name → m2.Hash = m.Hash) →
        dir2.get? m.Name = some (body m))
    ∧ (∀ name, (∀ m ∈ mods, m.Name ≠ name) → dir2.get? name = dir.get? name) := by
  unfold downloadPass at hrun
  cases mods with
  | nil =>
    have hneg : ¬ (([] : List Mod).length > 0 ∧ true = true) := by simp
    rw [if_neg hneg] at hrun
    rw [← Option.some.inj hrun]
    exact ⟨fun m hm => absurd hm (by simp), fun _ _ => rfl⟩
  | cons m0 rest =>
    have hpos : (m0 :: rest).length > 0 ∧ true = true := ⟨by simp, rfl⟩
    rw [if_pos hpos] at hrun
    cases hp : (Pool.init ((m0 :: rest).map
        (fun mod => (⟨mod, allSucceed body mod⟩ : Task))) dir).run sched with
    | none => rw [hp] at hrun; exact Option.noConfusion hrun
    | some p =>
      rw [hp] at hrun
      by_cases hd : p.done = true
      · simp only [hd, if_true, Option.some.injEq] at hrun
        rw [← hrun]
        exact batch_all_succeed _ body _ sched p hp hd
      · simp [hd] at hrun

/-- The folder after a confirmed run in which every deletion and every
download succeeds: the sub-directories are as they were; the file of a
downloaded entry whose name the download list has with no other hash holds
the body sent for it; of the other names, the listed ones are gone and the
rest are as they were. -/
theorem clientRun_spec (sha : Bytes → String) (modList : ModList)
    (folder folder2 : LocalFolder) (body : Mod → Bytes) (sched : List Action)
    (hrun : clientRun sha modList folder true true (allSucceed body) sched = some folder2) :
    folder2.subdirs = folder.subdirs
    ∧ (∀ m ∈ modsToDownload modList (scanLocal sha folder),
        (∀ m2 ∈ modsToDownload modList (scanLocal sha folder),
          m2.Name = m.Name → m2.Hash = m.Hash) →
        folder2.files.get? m.Name = some (body m))
    ∧ (∀ name, (∀ m ∈ modsToDownload modList (scanLocal sha folder), m.Name ≠ name) →
        folder2.files.get? name
          = if name ∈ modsToDelete modList (scanLocal sha folder) then none
            else folder.files.get? name) := by
  unfold clientRun at hrun
  simp only [Option.map_eq_some'] at hrun
  rcases hrun with ⟨files2, hdl, hfolder⟩
  have hb := downloadPass_spec _ files2 _ body sched hdl
  rw [← hfolder]
  refine ⟨rfl, hb.1, ?_⟩
  intro name hname
  show files2.get? name = _
  rw [hb.2 name hname]
  exact deletePass_get? folder.files _ name

/-- After a confirmed run without failures on a flat folder, for a manifest in
which entries of one name have one hash and no entry is tombstoned with its
own hash, the index has every listed name with the listed hash. -/
theorem index_after_run (sha : Bytes → String) (modList : ModList)
    (folder folder2 : LocalFolder) (body : Mod → Bytes) (sched : List Action)
    (hflat : folder.isFlat)
    (hfun : ∀ m ∈ modList.Mods, ∀ m2 ∈ modList.Mods, m2.Name = m.Name → m2.Hash = m.Hash)
    (hcons : ∀ m ∈ modList.Mods, modList.Delete.get? m.Name ≠ some m.Hash)
    (hbody : ∀ m ∈ modsToDownload modList (scanLocal sha folder), sha (body m) = m.Hash)
    (hrun : clientRun sha modList folder true true (allSucceed body) sched = some folder2) :
    folder2.isFlat
    ∧ ∀ m ∈ modList.Mods, (scanLocal sha folder2).get? m.Name = some m.Hash := by
  have hspec := clientRun_spec sha modList folder folder2 body sched hrun
  have hflat2 : folder2.isFlat := by
    unfold LocalFolder.isFlat
    rw [hspec.1]
    exact hflat
  refine ⟨hflat2, ?_⟩
  intro m hm
  rw [scanLocal_get? sha folder2 hflat2]
  by_cases hst : (scanLocal sha folder).get? m.Name = some m.Hash
  · -- up to date before the run: neither downloaded nor deleted
    have hnot : ∀ m2 ∈ modsToDownload modList (scanLocal sha folder), m2.Name ≠ m.Name := by
      intro m2 hm2 hname
      have hm2' := (mem_modsToDownload modList _ m2).1 hm2
      have hhash := hfun m hm m2 hm2'.1 hname
      rw [hname, hhash] at hm2'
      exact hm2'.2 hst
    rw [hspec.2.2 m.Name hnot]
    have hndel : m.Name ∉ modsToDelete modList (scanLocal sha folder) := by
      intro hmem
      rcases (mem_modsToDelete modList _ m.Name).1 hmem with ⟨d, hd1, hd2⟩
      rw [hst] at hd2
      rw [← Option.some.inj hd2] at hd1
      exact hcons m hm hd1
    rw [if_neg hndel, ← scanLocal_get? sha folder hflat]
    exact hst
  · have hdl : m ∈ modsToDownload modList (scanLocal sha folder) :=
      (mem_modsToDownload modList _ m).2 ⟨hm, hst⟩
    have hone : ∀ m2 ∈ modsToDownload modList (scanLocal sha folder),
        m2.Name = m.Name → m2.Hash = m.Hash :=
      fun m2 hm2 hname => hfun m hm m2 ((mem_modsToDownload modList _ m2).1 hm2).1 hname
    rw [hspec.2.1 m hdl hone]
    simp [hbody m hdl]

/-- C3, as the code has it: for a mods folder with no file in a sub-directory
and a manifest of bare file names in which entries of one name have one hash
and no entry is tombstoned with its own hash, after one confirmed run in which
every deletion and every download succeeds, the reconciliation of the same
manifest against the new local index gives an empty deletion list and an
empty download list. (The download writes the file `name` of the folder, which
is the file `filepath.Join(config.ModsFolder, name)` when `name` is bare.) -/
theorem second_run_empty (sha : Bytes → String) (modList : ModList)
    (folder folder2 : LocalFolder) (body : Mod → Bytes) (sched : List Action)
    (hflat : folder.isFlat)
    (_hbare : ∀ m ∈ modList.Mods, isBareName m.Name)
    (hfun : ∀ m ∈ modList.Mods, ∀ m2 ∈ modList.Mods, m2.Name = m.Name → m2.Hash = m.Hash)
    (hcons : ∀ m ∈ modList.Mods, modList.Delete.get? m.Name ≠ some m.Hash)
    (hbody : ∀ m ∈ modsToDownload modList (scanLocal sha folder), sha (body m) = m.Hash)
    (hrun : clientRun sha modList folder true true (allSucceed body) sched = some folder2) :
    modsToDelete modList (scanLocal sha folder2) = []
    ∧ modsToDownload modList (scanLocal sha folder2) = [] := by
  obtain ⟨hflat2, hidx⟩ :=
    index_after_run sha modList folder folder2 body sched hflat hfun hcons hbody hrun
  have hspec := clientRun_spec sha modList folder folder2 body sched hrun
  constructor
  · rw [List.eq_nil_iff_forall_not_mem]
    intro name hmem
    rcases (mem_modsToDelete modList _ name).1 hmem with ⟨d, hd1, hd2⟩
    by_cases hlisted : ∃ m ∈ modList.Mods, m.Name = name
    · rcases hlisted with ⟨m, hm, hname⟩
      have := hidx m hm
      rw [hname, hd2] at this
      rw [← hname, Option.some.inj this] at hd1
      exact hcons m hm hd1
    · have hnot : ∀ m ∈ modsToDownload modList (scanLocal sha folder), m.Name ≠ name :=
        fun m hm hname => hlisted ⟨m, ((mem_modsToDownload modList _ m).1 hm).1, hname⟩
      rw [scanLocal_get? sha folder2 hflat2, hspec.2.2 name hnot] at hd2
      by_cases hdel : name ∈ modsToDelete modList (scanLocal sha folder)
      · rw [if_pos hdel] at hd2
        exact Option.noConfusion hd2
      · rw [if_neg hdel, ← scanLocal_get? sha folder hflat] at hd2
        exact hdel ((mem_modsToDelete modList _ name).2 ⟨d, hd1, hd2⟩)
  · rw [List.eq_nil_iff_forall_not_mem]
    intro m hmem
    have hm := (mem_modsToDownload modList _ m).1 hmem
    exact hm.2 (hidx m hm.1)

/-- The scenario of the specification, run and reconciled again. -/
theorem second_run_empty_witness :
    ∃ folder2,
      clientRun textOf scenarioManifest scenarioFolder true true (allSucceed bodyOf)
          (seqSchedule [⟨⟨"b.jar", "H2"⟩, allSucceed bodyOf ⟨"b.jar", "H2"⟩⟩]) = some folder2
      ∧ folder2.files.get? "b.jar" = some (bytesOf "H2")
      ∧ folder2.files.get? "c.jar" = none
      ∧ modsToDelete scenarioManifest (scanLocal textOf folder2) = []
      ∧ modsToDownload scenarioManifest (scanLocal textOf folder2) = [] :=
  ⟨_, rfl, by decide, by decide,
    second_run_empty textOf scenarioManifest scenarioFolder _ bodyOf
      (seqSchedule [⟨⟨"b.jar", "H2"⟩, allSucceed bodyOf ⟨"b.jar", "H2"⟩⟩])
      (by decide) (by decide) (by decide) (by decide) (by decide) rfl⟩

/-- C3 fails on a manifest that lists `a.jar` with the digest its tombstone
has: from an empty folder the first run downloads `a.jar` and the second
reconciliation puts it on the deletion list; from a folder that has `a.jar`
the first run removes it and the second reconciliation puts it on the
download list. It fails as well on a folder whose only file is `sub/a.jar`:
the run writes `a.jar` in the folder, the next walk visits `a.jar` and then
`sub/a.jar`, whose digest stays in the index, and `a.jar` is on the download
list again. -/
theorem second_run_not_empty :
    (∃ folder2,
      clientRun textOf tombstonedManifest emptyFolder true true (allSucceed bodyOf)
          (seqSchedule [⟨⟨"a.jar", "H1"⟩, allSucceed bodyOf ⟨"a.jar", "H1"⟩⟩]) = some folder2
      ∧ modsToDelete tombstonedManifest (scanLocal textOf folder2) = ["a.jar"])
    ∧ (∃ folder2,
      clientRun textOf tombstonedManifest oneFileFolder true true (allSucceed bodyOf) []
          = some folder2
      ∧ modsToDownload tombstonedManifest (scanLocal textOf folder2) = [⟨"a.jar", "H1"⟩])
    ∧ (∃ folder2,
      clientRun textOf plainManifest nestedFolder true true (allSucceed bodyOf)
          (seqSchedule [⟨⟨"a.jar", "H1"⟩, allSucceed bodyOf ⟨"a.jar", "H1"⟩⟩]) = some folder2
      ∧ folder2.files.get? "a.jar" = some (bytesOf "H1")
      ∧ (scanLocal textOf folder2).get? "a.jar" = some "H0"
      ∧ modsToDownload plainManifest (scanLocal textOf folder2) = [⟨"a.jar", "H1"⟩]) :=
  ⟨⟨_, rfl, by decide⟩, ⟨_, rfl, by decide⟩, ⟨_, rfl, by decide, by decide, by decide⟩⟩

/-- Why C3 asks that entries of one name have one hash: a manifest that lists
`a.jar` with two hashes, as the server builds it from `mods/a.jar` and
`mods/sub/a.jar`, has a non-empty download list against every local index. -/
theorem double_listed_never_up_to_date (localMods : GoMap String) :
    modsToDownload doubleListedManifest localMods ≠ [] := by
  intro h
  have h2 : (⟨"a.jar", "H2"⟩ : Mod) ∉ modsToDownload doubleListedManifest localMods := by
    rw [h]; simp
  have h3 : (⟨"a.jar", "H3"⟩ : Mod) ∉ modsToDownload doubleListedManifest localMods := by
    rw [h]; simp
  rw [mem_modsToDownload] at h2 h3
  simp only [doubleListedManifest, List.mem_cons, List.mem_singleton, true_or, or_true,
    true_and, not_not, List.not_mem_nil, or_false] at h2 h3
  rw [h2] at h3
  exact absurd h3 (by decide)

/-- C4, as the code has it: for a mods folder with no file in a sub-directory,
when a bare name is tombstoned with the local digest and listed with a hash
different from that digest, and with no other hash, then in a confirmed run
without failures the name is on the deletion list, its entry is on the
download list, and after the run the file is there with a content whose
digest is the listed hash, which is what the next local index has for it. -/
theorem tombstoned_relisted_recreated (sha : Bytes → String) (modList : ModList)
    (folder folder2 : LocalFolder) (body : Mod → Bytes) (sched : List Action)
    (name digest : String) (m : Mod)
    (hflat : folder.isFlat)
    (_hbare : isBareName name)
    (hdel : modList.Delete.get? name = some digest)
    (hloc : (scanLocal sha folder).get? name = some digest)
    (hm : m ∈ modList.Mods) (hname : m.Name = name) (hne : m.Hash ≠ digest)
    (hone : ∀ m2 ∈ modList.Mods, m2.Name = name → m2.Hash = m.Hash)
    (hbody : sha (body m) = m.Hash)
    (hrun : clientRun sha modList folder true true (allSucceed body) sched = some folder2) :
    name ∈ modsToDelete modList (scanLocal sha folder)
    ∧ m ∈ modsToDownload modList (scanLocal sha folder)
    ∧ (∃ data, folder2.files.get? name = some data ∧ sha data = m.Hash)
    ∧ (scanLocal sha folder2).get? name = some m.Hash := by
  have hspec := clientRun_spec sha modList folder folder2 body sched hrun
  have hflat2 : folder2.isFlat := by
    unfold LocalFolder.isFlat
    rw [hspec.1]
    exact hflat
  have hdl : m ∈ modsToDownload modList (scanLocal sha folder) := by
    refine (mem_modsToDownload modList _ m).2 ⟨hm, ?_⟩
    rw [hname, hloc]
    intro h
    exact hne (Option.some.inj h).symm
  have hfile := hspec.2.1 m hdl
    (fun m2 hm2 hn => hone m2 ((mem_modsToDownload modList _ m2).1 hm2).1 (hn.trans hname))
  rw [hname] at hfile
  refine ⟨(mem_modsToDelete modList _ name).2 ⟨digest, hdel, hloc⟩, hdl,
    ⟨body m, hfile, hbody⟩, ?_⟩
  rw [scanLocal_get? sha folder2 hflat2, hfile]
  simp [hbody]

/-- A run on a manifest that lists `a.jar` anew after a tombstone for the
content the folder has. -/
theorem tombstoned_relisted_recreated_witness :
    ∃ folder2,
      clientRun textOf relistedManifest oneFileFolder true true (allSucceed bodyOf)
          (seqSchedule [⟨⟨"a.jar", "H2"⟩, allSucceed bodyOf ⟨"a.jar", "H2"⟩⟩]) = some folder2
      ∧ "a.jar" ∈ modsToDelete relistedManifest (scanLocal textOf oneFileFolder)
      ∧ (⟨"a.jar", "H2"⟩ : Mod)
          ∈ modsToDownload relistedManifest (scanLocal textOf oneFileFolder)
      ∧ (∃ data, folder2.files.get? "a.jar" = some data ∧ textOf data = "H2")
      ∧ (scanLocal textOf folder2).get? "a.jar" = some "H2" :=
  ⟨_, rfl,
    tombstoned_relisted_recreated textOf relistedManifest oneFileFolder _ bodyOf
      (seqSchedule [⟨⟨"a.jar", "H2"⟩, allSucceed bodyOf ⟨"a.jar", "H2"⟩⟩])
      "a.jar" "H1" ⟨"a.jar", "H2"⟩
      (by decide) (by decide) (by decide) (by decide) (by decide) rfl (by decide)
      (by decide) (by decide) rfl⟩

/-- C4 fails when the listed hash is the tombstone digest: `a.jar` is
tombstoned with the digest `H1`, listed with the hash `H1`, and there locally
with that digest. The run removes it and, the download list being computed
from the index of before the removal, does not download it: after the run
there is no `a.jar`. -/
theorem tombstoned_listed_not_recreated :
    tombstonedManifest.Delete.get? "a.jar" = some "H1"
    ∧ (scanLocal textOf oneFileFolder).get? "a.jar" = some "H1"
    ∧ (⟨"a.jar", "H1"⟩ : Mod) ∈ tombstonedManifest.Mods
    ∧ modsToDelete tombstonedManifest (scanLocal textOf oneFileFolder) = ["a.jar"]
    ∧ modsToDownload tombstonedManifest (scanLocal textOf oneFileFolder) = []
    ∧ ∀ sched, ∃ folder2,
        clientRun textOf tombstonedManifest oneFileFolder true true (allSucceed bodyOf) sched
          = some folder2
        ∧ folder2.files.get? "a.jar" = none
        ∧ folder2.subdirs = []
        ∧ (scanLocal textOf folder2).get? "a.jar" = none :=
  ⟨by decide, by decide, by decide, by decide, by decide,
    fun _ => ⟨_, rfl, by decide, rfl, by decide⟩⟩

/-- Why C4 asks for a folder with no file in a sub-directory: with `a.jar` and
`zzz/a.jar`, both of the tombstone digest, the run removes `a.jar` and
downloads the listed content to it, yet the next walk visits `zzz/a.jar` last
and the index keeps the tombstone digest for the name. -/
theorem nested_copy_keeps_index :
    ∃ folder2,
      clientRun textOf relistedManifest shadowedFolder true true (allSucceed bodyOf)
          (seqSchedule [⟨⟨"a.jar", "H2"⟩, allSucceed bodyOf ⟨"a.jar", "H2"⟩⟩]) = some folder2
      ∧ (scanLocal textOf shadowedFolder).get? "a.jar" = some "H1"
      ∧ folder2.files.get? "a.jar" = some (bytesOf "H2")
      ∧ (scanLocal textOf folder2).get? "a.jar" = some "H1" :=
  ⟨_, rfl, by decide, by decide, by decide⟩

end ModSync
